import Mathlib

/-!
Shallow embedding of the Palindrome Reversible Virtual Machine
(`src/tape/core.rs`, `src/tape/segment.rs`, `src/vm/registers.rs`,
`src/vm/executor.rs`, `src/instruction/mod.rs`).

Conventions of the embedding:
* Rust `i64` is modelled as `Int`; the wrapping arithmetic the source uses
  explicitly (`wrapping_add` etc.) is modelled by `wrap64`.  Rust `/` and `%`
  on `i64` truncate toward zero, so they are modelled by `Int.tdiv` /
  `Int.tmod` (Lean's `/` and `%` on `Int` are Euclidean and differ on
  negative operands).
* a Rust `as usize` cast of an `i64` is modelled by `usizeOfI64`
  (two's-complement wrap into `[0, 2^64)`).
* a Rust panic (out-of-bounds slice index, arithmetic overflow of a `usize`
  subtraction in `4096 - page_offset`) is modelled by returning `none`;
  `usize` subtraction in `VM::reverse_last` is modelled with two's-complement
  wrap-around (release-profile semantics; a debug build panics at the same
  spot, so both profiles diverge from the specified behaviour at the same
  inputs).  The same convention applies to the `i64` additions and `usize`
  to `i64` casts of the segment bounds checks (`offset + len as i64 >
  segment.size as i64`): they are modelled with `wrap64`, matching the
  release profile; a debug build panics at exactly the inputs where the
  wrap occurs.
* `Vec` pushes/pops at the back are modelled by lists whose HEAD is the most
  recently pushed element (the Rust vector reversed).
* `HashMap`s that are only queried and updated pointwise are modelled as
  functions into `Option`; the segment map, which is also iterated by the
  first-fit allocator, is an association list.
* loops are written with an explicit fuel that is always sufficient (each
  iteration of the Rust loops consumes at least one byte / pops at least one
  list element); exhausted fuel returns `none` and is unreachable at the
  call sites used here.
-/

namespace Palindrome

/-- Two's-complement wrap of an integer into the `i64` range, as performed by
Rust's `wrapping_add` / `wrapping_sub` / `wrapping_mul`. -/
def wrap64 (x : Int) : Int :=
  (x + 2 ^ 63) % 2 ^ 64 - 2 ^ 63

/-- The value of an `i64` reinterpreted as a `u64`/`usize` (Rust `as usize`). -/
def usizeOfI64 (x : Int) : Nat :=
  (x % 2 ^ 64).toNat

/-- Wrapping subtraction on `usize` (release-profile Rust `a - b`). -/
def usizeSub (a b : Nat) : Nat :=
  (((a : Int) - (b : Int)) % 2 ^ 64).toNat

/-- The `u64` bit pattern of an `i64` value. -/
def toUInt64 (x : Int) : Nat :=
  (x % 2 ^ 64).toNat

/-- Reinterpret a `u64` bit pattern as an `i64` value. -/
def ofUInt64 (n : Nat) : Int :=
  if n < 2 ^ 63 then (n : Int) else (n : Int) - 2 ^ 64

/-- `i64::to_le_bytes`: the eight little-endian bytes of a value. -/
def toLeBytes8 (x : Int) : List Nat :=
  [toUInt64 x % 256,
   toUInt64 x / 256 % 256,
   toUInt64 x / 256 ^ 2 % 256,
   toUInt64 x / 256 ^ 3 % 256,
   toUInt64 x / 256 ^ 4 % 256,
   toUInt64 x / 256 ^ 5 % 256,
   toUInt64 x / 256 ^ 6 % 256,
   toUInt64 x / 256 ^ 7 % 256]

/-- Assemble a little-endian byte list into a natural number. -/
def leNat (bs : List Nat) : Nat :=
  bs.foldr (fun b acc => b + 256 * acc) 0

/-- `i64::from_le_bytes` on an 8-byte list. -/
def fromLeBytes (bs : List Nat) : Int :=
  ofUInt64 (leNat bs)

/-- Rust `^` on `i64` (bitwise xor of the two's-complement bit patterns). -/
def xor64 (a b : Int) : Int :=
  ofUInt64 (Nat.xor (toUInt64 a) (toUInt64 b))

/-- A 4 KiB page of tape data (`Page` in `src/tape/core.rs`): a byte buffer
with a copy-on-write reference count.  The buffer is modelled as a function
from offsets `0..4095` to byte values. -/
structure Page where
  data : Nat → Nat
  cowRefs : Nat

/-- One entry of the history trail (`TrailOp` in `src/tape/core.rs`). -/
inductive TrailOp where
  | write (pos : Int) (old new : List Nat)
  | seek (oldPos newPos : Int)
  | mark (label : String) (pos : Int)
  | segmentCreate (name : String) (start : Int) (size : Nat)
  | segmentModify (name : String) (offset : Int) (oldData newData : List Nat)
deriving DecidableEq

/-- The tape (`Tape` in `src/tape/core.rs`): sparse pages, a head position,
named marks, and the history trail together with its named checkpoints
(the `Trail` struct is inlined as the `trail` and `checkpoints` fields).
The head of `trail` is the most recently pushed operation. -/
structure Tape where
  pages : Int → Option Page
  head : Int
  marks : String → Option Int
  trail : List TrailOp
  checkpoints : String → Option Nat

/-- `Tape::new`. -/
def Tape.new : Tape :=
  { pages := fun _ => none
    head := 0
    marks := fun _ => none
    trail := []
    checkpoints := fun _ => none }

/-- The loop body of `Tape::read`.  `lenLeft` is `len - result.len()`, `acc`
is the accumulated result.  Returns `none` where the Rust code panics: when
the `(pos % 4096) as usize` cast of a negative remainder produces an offset
`≥ 4096` and the page is present, the slice index (debug: the `usize`
subtraction `4096 - page_offset`) is out of bounds. -/
def readAux (pages : Int → Option Page) : Nat → Int → Nat → List Nat → Option (List Nat)
  | 0, _, lenLeft, acc => if lenLeft = 0 then some acc else none
  | fuel + 1, pos, lenLeft, acc =>
    if lenLeft = 0 then some acc else
    let pageIdx := pos.tdiv 4096
    let pageOff := usizeOfI64 (pos.tmod 4096)
    match pages pageIdx with
    | some page =>
      if pageOff < 4096 then
        let available := min (4096 - pageOff) lenLeft
        readAux pages fuel (pos + available) (lenLeft - available)
          (acc ++ (List.range available).map (fun i => page.data (pageOff + i)))
      else none
    | none =>
      let zerosNeeded := min lenLeft 4096
      readAux pages fuel (pos + zerosNeeded) (lenLeft - zerosNeeded)
        (acc ++ List.replicate zerosNeeded 0)

/-- `Tape::read`: read `len` bytes at the current head position.  The head is
not moved and nothing is journaled. -/
def Tape.read (t : Tape) (len : Nat) : Option (List Nat) :=
  readAux t.pages len t.head len []

/-- The loop body shared by `Tape::write` (after its trail push) with the
copy-on-write branch.  `data` is the not-yet-written suffix of the input.
Returns `none` where the Rust code panics (negative remainder cast, as in
`readAux`). -/
def writeAux (pages : Int → Option Page) : Nat → Int → List Nat → Option (Int → Option Page)
  | 0, _, data => if data.isEmpty then some pages else none
  | fuel + 1, pos, data =>
    if data.isEmpty then some pages else
    let pageIdx := pos.tdiv 4096
    let pageOff := usizeOfI64 (pos.tmod 4096)
    if pageOff < 4096 then
      let toWrite := min data.length (4096 - pageOff)
      let page := (pages pageIdx).getD { data := fun _ => 0, cowRefs := 0 }
      let newData : Nat → Nat := fun j =>
        if pageOff ≤ j ∧ j < pageOff + toWrite then data.getD (j - pageOff) 0 else page.data j
      let page' : Page :=
        if page.cowRefs > 0 then { data := newData, cowRefs := 0 }
        else { page with data := newData }
      writeAux (fun i => if i = pageIdx then some page' else pages i) fuel
        (pos + toWrite) (data.drop toWrite)
    else none

/-- The loop body of `Tape::write_raw` (no copy-on-write check, no
journaling). -/
def writeRawAux (pages : Int → Option Page) : Nat → Int → List Nat → Option (Int → Option Page)
  | 0, _, data => if data.isEmpty then some pages else none
  | fuel + 1, pos, data =>
    if data.isEmpty then some pages else
    let pageIdx := pos.tdiv 4096
    let pageOff := usizeOfI64 (pos.tmod 4096)
    if pageOff < 4096 then
      let toWrite := min data.length (4096 - pageOff)
      let page := (pages pageIdx).getD { data := fun _ => 0, cowRefs := 0 }
      let newData : Nat → Nat := fun j =>
        if pageOff ≤ j ∧ j < pageOff + toWrite then data.getD (j - pageOff) 0 else page.data j
      writeRawAux (fun i => if i = pageIdx then some { page with data := newData } else pages i)
        fuel (pos + toWrite) (data.drop toWrite)
    else none

/-- `Tape::write`: journaled write at the head.  First reads the old bytes of
the same range, pushes a `Write` trail entry, then streams the bytes into the
pages.  The head does not move. -/
def Tape.write (t : Tape) (data : List Nat) : Option Tape :=
  match t.read data.length with
  | none => none
  | some old =>
    match writeAux t.pages data.length t.head data with
    | none => none
    | some pages' =>
      some { t with pages := pages'
                    trail := TrailOp.write t.head old data :: t.trail }

/-- `Tape::write_raw`: write without journaling (used by undo). -/
def Tape.writeRaw (t : Tape) (data : List Nat) : Option Tape :=
  match writeRawAux t.pages data.length t.head data with
  | none => none
  | some pages' => some { t with pages := pages' }

/-- `Tape::seek`: journaled head move. -/
def Tape.seek (t : Tape) (pos : Int) : Tape :=
  { t with head := pos, trail := TrailOp.seek t.head pos :: t.trail }

/-- `Tape::advance`. -/
def Tape.advance (t : Tape) (delta : Int) : Tape :=
  t.seek (t.head + delta)

/-- `Tape::mark`: journaled label insertion at the head position. -/
def Tape.mark (t : Tape) (label : String) : Tape :=
  { t with marks := fun n => if n = label then some t.head else t.marks n
           trail := TrailOp.mark label t.head :: t.trail }

/-- `Tape::seek_mark`. -/
def Tape.seekMark (t : Tape) (label : String) : Tape × Except String Unit :=
  match t.marks label with
  | some pos => (t.seek pos, Except.ok ())
  | none => (t, Except.error ("Unknown mark: " ++ label))

/-- `Tape::checkpoint`: record the current trail length under `name`. -/
def Tape.checkpoint (t : Tape) (name : String) : Tape :=
  { t with checkpoints := fun n => if n = name then some t.trail.length else t.checkpoints n }

/-- `Tape::get_mark`. -/
def Tape.getMark (t : Tape) (label : String) : Option Int :=
  t.marks label

/-- `Tape::add_trail_op`. -/
def Tape.addTrailOp (t : Tape) (op : TrailOp) : Tape :=
  { t with trail := op :: t.trail }

/-- `Tape::position`. -/
def Tape.position (t : Tape) : Int :=
  t.head

/-- `Tape::trail_len`. -/
def Tape.trailLen (t : Tape) : Nat :=
  t.trail.length

/-- `Tape::undo_operation`: invert one popped trail entry.  The entry has
already been removed from `t.trail` by the caller.  The `SegmentCreate` and
`SegmentModify` arms do nothing (the source comments claim the segment side
is "handled by SegmentedTape", but no such handling exists anywhere in the
crate). -/
def Tape.undoOperation (t : Tape) (op : TrailOp) : Option Tape :=
  match op with
  | TrailOp.write pos old _ => Tape.writeRaw { t with head := pos } old
  | TrailOp.seek oldPos _ => some { t with head := oldPos }
  | TrailOp.mark label _ =>
    some { t with marks := fun n => if n = label then none else t.marks n }
  | TrailOp.segmentCreate _ _ _ => some t
  | TrailOp.segmentModify _ _ _ _ => some t

/-- `Tape::rewind_n`: pop and undo the last `n` trail entries, stopping early
when the trail is empty (the Rust loop keeps iterating but each iteration is
a no-op once the trail is empty). -/
def Tape.rewindN (t : Tape) : Nat → Option Tape
  | 0 => some t
  | n + 1 =>
    match t.trail with
    | [] => some t
    | op :: rest =>
      match Tape.undoOperation { t with trail := rest } op with
      | none => none
      | some t' => Tape.rewindN t' n

/-- `Tape::rewind`: undo back to a named checkpoint. -/
def Tape.rewind (t : Tape) (name : String) : Option (Tape × Except String Unit) :=
  match t.checkpoints name with
  | none => some (t, Except.error ("Unknown checkpoint: " ++ name))
  | some checkpointPos =>
    match t.rewindN (t.trail.length - checkpointPos) with
    | none => none
    | some t' => some (t', Except.ok ())

/-- Segment kinds (`SegmentType` in `src/tape/segment.rs`). -/
inductive SegmentType where
  | code
  | data
  | stack
  | heap
  | table (schema : List (String × Bool))
  | index
  | log
deriving DecidableEq

/-- Index kinds (`IndexType` in `src/tape/segment.rs`); carried around but
never exercised by the interpreter. -/
inductive IndexType where
  | btree
  | hash
  | bitmap
  | fullText
deriving DecidableEq

/-- An auxiliary index record (`Index` in `src/tape/segment.rs`). -/
structure SegIndex where
  name : String
  indexType : IndexType
  fields : List String
  rootPosition : Int
deriving DecidableEq

/-- A named region of tape (`Segment` in `src/tape/segment.rs`). -/
structure Segment where
  name : String
  start : Int
  size : Nat
  segmentType : SegmentType
  indices : List SegIndex
deriving DecidableEq

/-- The segmented tape (`SegmentedTape` in `src/tape/segment.rs`).  The
segment `HashMap` is modelled as an association list (its only iteration,
in `find_free_space`, sorts by start before use). -/
structure SegmentedTape where
  tape : Tape
  segments : List (String × Segment)

/-- `SegmentedTape::new`. -/
def SegmentedTape.new : SegmentedTape :=
  { tape := Tape.new, segments := [] }

/-- Insertion into a list sorted by the first component (used to model
`sort_by_key` below; insertion sort is stable, like the Rust sort). -/
def insertByStart (x : Int × Int) : List (Int × Int) → List (Int × Int)
  | [] => [x]
  | y :: ys => if x.1 ≤ y.1 then x :: y :: ys else y :: insertByStart x ys

/-- Stable sort by the first component. -/
def sortByStart : List (Int × Int) → List (Int × Int)
  | [] => []
  | x :: xs => insertByStart x (sortByStart xs)

/-- The scan loop of `SegmentedTape::find_free_space`. -/
def findFreeAux (size : Nat) : Int → List (Int × Int) → Int
  | cursor, [] => cursor
  | cursor, (start, stop) :: rest =>
    if start - cursor ≥ (size : Int) then cursor else findFreeAux size stop rest

/-- `SegmentedTape::find_free_space`: first-fit over the segments sorted by
start (the Rust version returns `Result` but never errors). -/
def SegmentedTape.findFreeSpace (st : SegmentedTape) (size : Nat) : Int :=
  findFreeAux size 0
    (sortByStart (st.segments.map (fun s => (s.2.start, s.2.start + (s.2.size : Int)))))

/-- `SegmentedTape::create_segment`. -/
def SegmentedTape.createSegment (st : SegmentedTape) (name : String) (size : Nat)
    (segmentType : SegmentType) : SegmentedTape × Except String Int :=
  if (st.segments.lookup name).isSome then
    (st, Except.error ("Segment '" ++ name ++ "' already exists"))
  else
    let start := st.findFreeSpace size
    let segment : Segment :=
      { name := name, start := start, size := size, segmentType := segmentType, indices := [] }
    ({ tape := st.tape.addTrailOp (TrailOp.segmentCreate name start size)
       segments := (name, segment) :: st.segments },
     Except.ok start)

/-- `SegmentedTape::read_segment`: bounds-checked read that clones the tape,
seeks the clone and reads from it (so `self` is untouched).  `none` models a
panic inside the cloned read.  The source's check computes
`offset + len as i64 > segment.size as i64` in `i64`: both `as i64` casts
reinterpret the `usize` bit pattern and the addition wraps in a release
build (a debug build panics on overflow at the same inputs), modelled here
with `wrap64`. -/
def SegmentedTape.readSegment (st : SegmentedTape) (name : String) (offset : Int)
    (len : Nat) : Option (Except String (List Nat)) :=
  match st.segments.lookup name with
  | none => some (Except.error ("Unknown segment: " ++ name))
  | some segment =>
    if offset < 0 ∨ wrap64 (offset + wrap64 (len : Int)) > wrap64 (segment.size : Int) then
      some (Except.error ("Segment bounds violation"))
    else
      match (st.tape.seek (segment.start + offset)).read len with
      | none => none
      | some data => some (Except.ok data)

/-- `SegmentedTape::write_segment`: bounds-checked journaled write.  On the
success path it seeks to the target, captures the old bytes, pushes a
`SegmentModify` entry, seeks again, performs a journaled `Tape::write`, and
finally restores the original head position.  As in `read_segment`, the
bounds check evaluates `offset + data.len() as i64 > segment.size as i64`
in `i64`: the casts reinterpret bit patterns and the addition wraps in a
release build (a debug build panics on overflow), modelled with `wrap64`. -/
def SegmentedTape.writeSegment (st : SegmentedTape) (name : String) (offset : Int)
    (data : List Nat) : Option (SegmentedTape × Except String Unit) :=
  match st.segments.lookup name with
  | none => some (st, Except.error ("Unknown segment: " ++ name))
  | some segment =>
    if offset < 0 ∨ wrap64 (offset + wrap64 (data.length : Int)) > wrap64 (segment.size : Int) then
      some (st, Except.error ("Segment bounds violation"))
    else
      let oldPos := st.tape.position
      let t1 := st.tape.seek (segment.start + offset)
      match t1.read data.length with
      | none => none
      | some oldData =>
        let t2 := t1.addTrailOp (TrailOp.segmentModify name offset oldData data)
        let t3 := t2.seek (segment.start + offset)
        match t3.write data with
        | none => none
        | some t4 => some ({ st with tape := t4.seek oldPos }, Except.ok ())

/-- `SegmentedTape::get_segment`. -/
def SegmentedTape.getSegment (st : SegmentedTape) (name : String) : Option Segment :=
  st.segments.lookup name

/-- CPU flags (`Flags` in `src/vm/registers.rs`). -/
structure Flags where
  zero : Bool
  carry : Bool
  overflow : Bool
  negative : Bool
deriving DecidableEq

/-- The register file (`RegisterFile` in `src/vm/registers.rs`): sixteen
general `i64` registers (modelled as a function, like the Rust array) and
the flags. -/
structure RegisterFile where
  general : Nat → Int
  flags : Flags

/-- `RegisterFile::new`. -/
def RegisterFile.new : RegisterFile :=
  { general := fun _ => 0, flags := { zero := false, carry := false, overflow := false, negative := false } }

/-- `RegisterFile::read`. -/
def RegisterFile.read (rf : RegisterFile) (reg : Nat) : Except String Int :=
  if reg < 16 then Except.ok (rf.general reg)
  else Except.error ("Invalid register")

/-- `RegisterFile::write`: returns the updated file, or an error (in which
case the Rust original leaves the file unchanged). -/
def RegisterFile.write (rf : RegisterFile) (reg : Nat) (value : Int) : Except String RegisterFile :=
  if reg < 16 then Except.ok { rf with general := fun r => if r = reg then value else rf.general r }
  else Except.error ("Invalid register")

/-- `RegisterFile::update_flags`. -/
def RegisterFile.updateFlags (rf : RegisterFile) (value : Int) : RegisterFile :=
  { rf with flags := { rf.flags with zero := value = 0, negative := value < 0 } }

/-- Merge strategies (`MergeStrategy` in `src/instruction/mod.rs`). -/
inductive MergeStrategy where
  | latest
  | earliest
  | combine
  | manual
deriving DecidableEq

/-- The instruction set (`Instruction` in `src/instruction/mod.rs`).
Register operands are `u8` in the source and modelled as `Nat` (the
executor validates `reg < 16` itself).  The source enum omits the variants
`IAdd`, `ISub`, `IMul`, `IXor`, `Load` and `Store` even though both the
parser and the executor construct and match them (the crate does not
type-check as published); they are included here with the field shapes used
at those sites. -/
inductive Instruction where
  | iadd (dst src1 src2 : Nat)
  | isub (dst src1 src2 : Nat)
  | imul (dst src1 src2 : Nat)
  | ixor (dst src1 src2 : Nat)
  | load (reg addr : Nat)
  | store (addr reg : Nat)
  | radd (src1 src2 dst : Nat)
  | rsub (src1 src2 dst : Nat)
  | rxor (src dst : Nat)
  | rload (dst addr old : Nat)
  | rstore (addr src old : Nat)
  | mswap (addr reg : Nat)
  | swap (reg1 reg2 : Nat)
  | push (reg : Nat)
  | pop (reg : Nat)
  | tapeRead (reg : Nat) (len : Nat)
  | tapeWrite (reg : Nat) (len : Nat)
  | tapeSeek (position : Int)
  | tapeSeekReg (reg : Nat)
  | tapeAdvance (delta : Int)
  | tapeMark (label : String)
  | tapeSeekMark (label : String)
  | segmentCreate (name : String) (size : Nat)
  | segmentSeek (name : String) (offset : Nat)
  | segmentRead (name : String) (offset len dst : Nat)
  | segmentWrite (name : String) (offset len src : Nat)
  | splice (dst src : Int) (len : Nat)
  | compact (start stop : Int)
  | fork (label : String)
  | merge (strategy : MergeStrategy)
  | call (label : String)
  | ret
  | jump (label : String)
  | branch (condition : Nat) (label : String)
  | branchZero (reg : Nat) (label : String)
  | branchNotZero (reg : Nat) (label : String)
  | checkpoint (label : String)
  | rewind (label : String)
  | rewindN (steps : Nat)
  | compare (dst src1 src2 : Nat)
  | equal (dst src1 src2 : Nat)
  | lessThan (dst src1 src2 : Nat)
  | loadImm (reg : Nat) (value : Int)
  | halt
  | nop
  | debug (message : String)
deriving DecidableEq

/-- One frame of the execution history (`HistoryFrame` in
`src/vm/executor.rs`). -/
structure HistoryFrame where
  instruction : Instruction
  registersBefore : RegisterFile
  ipBefore : Int
  spBefore : Int
  fpBefore : Int
  tapeTrailLen : Nat

/-- A parallel timeline (`Timeline` in `src/vm/executor.rs`); declared but
never driven by the executor (`Fork`/`Merge` are unimplemented). -/
structure Timeline where
  tape : SegmentedTape
  registers : RegisterFile
  ip : Int
  sp : Int
  fp : Int

/-- The VM (`VM` in `src/vm/executor.rs`).  The `ExecutionHistory` struct is
inlined as `historyStack` (head = top of the Rust stack) and
`historyCheckpoints`. -/
structure VM where
  tape : SegmentedTape
  registers : RegisterFile
  ip : Int
  sp : Int
  fp : Int
  historyStack : List HistoryFrame
  historyCheckpoints : String → Option Nat
  timelines : List (String × Timeline)
  currentTimeline : String
  symbols : String → Option Int

/-- `VM::new`: fresh registers and pointers plus the three pre-created 1 MiB
segments `code`, `stack`, `heap`. -/
def VM.new : VM :=
  let st0 := SegmentedTape.new
  let st1 := (st0.createSegment ("code") (1024 * 1024) SegmentType.code).1
  let st2 := (st1.createSegment ("stack") (1024 * 1024) SegmentType.stack).1
  let st3 := (st2.createSegment ("heap") (1024 * 1024) SegmentType.heap).1
  { tape := st3
    registers := RegisterFile.new
    ip := 0
    sp := 1024 * 1024
    fp := 1024 * 1024
    historyStack := []
    historyCheckpoints := fun _ => none
    timelines := []
    currentTimeline := "main"
    symbols := fun _ => none }

/-- The result of one `VM::execute` / `VM::reverse_last` call: `none` models
a Rust panic; otherwise the (possibly partially) mutated VM together with
the `Result`. -/
abbrev StepOut := Option (VM × Except String Unit)

/-- Replace the inner tape of the VM. -/
def VM.withTape (vm : VM) (t : Tape) : VM :=
  { vm with tape := { vm.tape with tape := t } }

/-- Run `k` on the value of register `reg`, propagating a read error with the
current state (Rust `self.registers.read(r)?`). -/
def withReg (vm : VM) (reg : Nat) (k : Int → StepOut) : StepOut :=
  match vm.registers.read reg with
  | Except.error e => some (vm, Except.error e)
  | Except.ok v => k v

/-- Run `k` on the register file updated at `reg`, propagating a write error
with the current state (Rust `self.registers.write(r, v)?`). -/
def withWrite (vm : VM) (reg : Nat) (value : Int) (k : RegisterFile → StepOut) : StepOut :=
  match vm.registers.write reg value with
  | Except.error e => some (vm, Except.error e)
  | Except.ok rf => k rf

/-- Finish a fall-through arm of `execute`: increment the instruction
pointer and return `Ok(())`. -/
def stepOk (vm : VM) : StepOut :=
  some ({ vm with ip := vm.ip + 1 }, Except.ok ())

/-- `VM::save_history_frame`. -/
def VM.saveHistoryFrame (vm : VM) (inst : Instruction) : VM :=
  { vm with historyStack :=
      { instruction := inst
        registersBefore := vm.registers
        ipBefore := vm.ip
        spBefore := vm.sp
        fpBefore := vm.fp
        tapeTrailLen := vm.tape.tape.trail.length } :: vm.historyStack }

/-- `VM::resolve_label`: symbol table first, then tape marks. -/
def VM.resolveLabel (vm : VM) (label : String) : Except String Int :=
  match vm.symbols label with
  | some v => Except.ok v
  | none =>
    match vm.tape.tape.getMark label with
    | some p => Except.ok p
    | none => Except.error ("Unknown label: " ++ label)

/-- `VM::reverse_last`: pop the top history frame, restore the register /
pointer snapshot, and rewind the tape journal by the trail-length delta.
The delta is the Rust `usize` subtraction
`self.tape.tape.trail_len() - frame.tape_trail_len`, modelled with
two's-complement wrap-around (a debug build panics when it underflows). -/
def VM.reverseLast (vm : VM) : StepOut :=
  match vm.historyStack with
  | [] => some (vm, Except.error ("No operations to reverse"))
  | frame :: rest =>
    let vm1 : VM :=
      { vm with registers := frame.registersBefore
                ip := frame.ipBefore
                sp := frame.spBefore
                fp := frame.fpBefore
                historyStack := rest }
    let rewindCount := usizeSub vm1.tape.tape.trail.length frame.tapeTrailLen
    match vm1.tape.tape.rewindN rewindCount with
    | none => none
    | some t' => some (vm1.withTape t', Except.ok ())

/-- The loop of the `RewindN` arm: `for _ in 0..n { self.reverse_last()?; }`.
`fuel` is the current history depth, which bounds the number of successful
iterations (an unsuccessful one exits the loop through `?`). -/
def reverseLoop : Nat → VM → Nat → StepOut
  | _, vm, 0 => some (vm, Except.ok ())
  | fuel, vm, n + 1 =>
    match vm.reverseLast with
    | none => none
    | some (vm1, Except.error e) => some (vm1, Except.error e)
    | some (vm1, Except.ok _) =>
      match fuel with
      | 0 => none
      | fuel + 1 => reverseLoop fuel vm1 n

/-- `VM::execute`: push a history frame, then dispatch on the instruction.
Arms that transfer control return without the final `ip` increment, exactly
as the `return Ok(())` early exits do in the source. -/
def VM.execute (vm0 : VM) (inst : Instruction) : StepOut :=
  let vm := vm0.saveHistoryFrame inst
  match inst with
  | Instruction.iadd dst src1 src2 =>
    withReg vm src1 fun v1 => withReg vm src2 fun v2 =>
    withWrite vm dst (wrap64 (v1 + v2)) fun rf =>
    match rf.read dst with
    | Except.error e => some ({ vm with registers := rf }, Except.error e)
    | Except.ok d => stepOk { vm with registers := rf.updateFlags d }
  | Instruction.isub dst src1 src2 =>
    withReg vm src1 fun v1 => withReg vm src2 fun v2 =>
    withWrite vm dst (wrap64 (v1 - v2)) fun rf =>
    match rf.read dst with
    | Except.error e => some ({ vm with registers := rf }, Except.error e)
    | Except.ok d => stepOk { vm with registers := rf.updateFlags d }
  | Instruction.imul dst src1 src2 =>
    withReg vm src1 fun v1 => withReg vm src2 fun v2 =>
    withWrite vm dst (wrap64 (v1 * v2)) fun rf =>
    match rf.read dst with
    | Except.error e => some ({ vm with registers := rf }, Except.error e)
    | Except.ok d => stepOk { vm with registers := rf.updateFlags d }
  | Instruction.ixor dst src1 src2 =>
    withReg vm src1 fun v1 => withReg vm src2 fun v2 =>
    withWrite vm dst (xor64 v1 v2) fun rf =>
    match rf.read dst with
    | Except.error e => some ({ vm with registers := rf }, Except.error e)
    | Except.ok d => stepOk { vm with registers := rf.updateFlags d }
  | Instruction.load reg addr =>
    withReg vm addr fun address =>
    let t1 := vm.tape.tape.seek address
    let vm1 := vm.withTape t1
    match t1.read 8 with
    | none => none
    | some bs =>
      if bs.length = 8 then
        withWrite vm1 reg (fromLeBytes bs) fun rf => stepOk { vm1 with registers := rf }
      else some (vm1, Except.error ("Failed to read 8 bytes"))
  | Instruction.store addr reg =>
    withReg vm addr fun address => withReg vm reg fun value =>
    let t1 := vm.tape.tape.seek address
    match t1.write (toLeBytes8 value) with
    | none => none
    | some t2 => stepOk (vm.withTape t2)
  | Instruction.push reg =>
    let sp1 := vm.sp - 8
    let t1 := vm.tape.tape.seek sp1
    let vm1 := { vm.withTape t1 with sp := sp1 }
    withReg vm1 reg fun value =>
    match t1.write (toLeBytes8 value) with
    | none => none
    | some t2 => stepOk { vm1.withTape t2 with sp := sp1 }
  | Instruction.pop reg =>
    let t1 := vm.tape.tape.seek vm.sp
    let vm1 := vm.withTape t1
    match t1.read 8 with
    | none => none
    | some bs =>
      if bs.length = 8 then
        withWrite vm1 reg (fromLeBytes bs) fun rf =>
          stepOk { vm1 with registers := rf, sp := vm1.sp + 8 }
      else some (vm1, Except.error ("Failed to read 8 bytes"))
  | Instruction.tapeRead reg len =>
    match vm.tape.tape.read len with
    | none => none
    | some data =>
      let copyLen := min len 8
      if copyLen ≤ data.length then
        let bytes := (List.range 8).map (fun i => if i < copyLen then data.getD i 0 else 0)
        withWrite vm reg (fromLeBytes bytes) fun rf => stepOk { vm with registers := rf }
      else none
  | Instruction.tapeWrite reg len =>
    withReg vm reg fun value =>
    match vm.tape.tape.write ((toLeBytes8 value).take (min len 8)) with
    | none => none
    | some t2 => stepOk (vm.withTape t2)
  | Instruction.tapeSeek position => stepOk (vm.withTape (vm.tape.tape.seek position))
  | Instruction.tapeSeekReg reg =>
    withReg vm reg fun p => stepOk (vm.withTape (vm.tape.tape.seek p))
  | Instruction.tapeAdvance delta => stepOk (vm.withTape (vm.tape.tape.advance delta))
  | Instruction.tapeMark label => stepOk (vm.withTape (vm.tape.tape.mark label))
  | Instruction.tapeSeekMark label =>
    match vm.tape.tape.seekMark label with
    | (t1, Except.ok _) => stepOk (vm.withTape t1)
    | (t1, Except.error e) => some (vm.withTape t1, Except.error e)
  | Instruction.jump label =>
    match vm.resolveLabel label with
    | Except.error e => some (vm, Except.error e)
    | Except.ok target => some ({ vm with ip := target }, Except.ok ())
  | Instruction.branchZero reg label =>
    withReg vm reg fun v =>
    if v = 0 then
      match vm.resolveLabel label with
      | Except.error e => some (vm, Except.error e)
      | Except.ok target => some ({ vm with ip := target }, Except.ok ())
    else stepOk vm
  | Instruction.branchNotZero reg label =>
    withReg vm reg fun v =>
    if v ≠ 0 then
      match vm.resolveLabel label with
      | Except.error e => some (vm, Except.error e)
      | Except.ok target => some ({ vm with ip := target }, Except.ok ())
    else stepOk vm
  | Instruction.call label =>
    let sp1 := vm.sp - 8
    let t1 := vm.tape.tape.seek sp1
    match t1.write (toLeBytes8 (vm.ip + 1)) with
    | none => none
    | some t2 =>
      let sp2 := sp1 - 8
      let t3 := t2.seek sp2
      match t3.write (toLeBytes8 vm.fp) with
      | none => none
      | some t4 =>
        let vm1 := { vm.withTape t4 with sp := sp2, fp := sp2 }
        match vm1.resolveLabel label with
        | Except.error e => some (vm1, Except.error e)
        | Except.ok target => some ({ vm1 with ip := target }, Except.ok ())
  | Instruction.ret =>
    let t1 := vm.tape.tape.seek vm.fp
    match t1.read 8 with
    | none => none
    | some bs1 =>
      if bs1.length = 8 then
        let fp1 := fromLeBytes bs1
        let sp1 := vm.sp + 8
        let t2 := t1.seek sp1
        match t2.read 8 with
        | none => none
        | some bs2 =>
          if bs2.length = 8 then
            some ({ vm.withTape t2 with fp := fp1, sp := sp1 + 8, ip := fromLeBytes bs2 },
              Except.ok ())
          else some ({ vm.withTape t2 with fp := fp1, sp := sp1 },
            Except.error ("Failed to read return address"))
      else some (vm.withTape t1, Except.error ("Failed to read frame pointer"))
  | Instruction.checkpoint label =>
    let t1 := vm.tape.tape.checkpoint label
    stepOk { vm.withTape t1 with historyCheckpoints :=
      fun n => if n = label then some vm.historyStack.length else vm.historyCheckpoints n }
  | Instruction.rewind label =>
    match vm.tape.tape.rewind label with
    | none => none
    | some (t1, Except.error e) => some (vm.withTape t1, Except.error e)
    | some (t1, Except.ok _) =>
      let vm1 := vm.withTape t1
      match vm1.historyCheckpoints label with
      | none => some (vm1, Except.ok ())
      | some checkpointPos =>
        let stack1 := vm1.historyStack.drop (vm1.historyStack.length - checkpointPos)
        match stack1 with
        | [] => some ({ vm1 with historyStack := [] }, Except.ok ())
        | frame :: rest =>
          some ({ vm1 with historyStack := frame :: rest
                           registers := frame.registersBefore
                           ip := frame.ipBefore
                           sp := frame.spBefore
                           fp := frame.fpBefore }, Except.ok ())
  | Instruction.rewindN steps =>
    withReg vm steps fun n =>
    reverseLoop vm.historyStack.length vm (usizeOfI64 n)
  | Instruction.loadImm reg value =>
    withWrite vm reg value fun rf => stepOk { vm with registers := rf }
  | Instruction.compare dst src1 src2 =>
    withReg vm src1 fun v1 => withReg vm src2 fun v2 =>
    let result : Int := if v1 < v2 then -1 else if v1 > v2 then 1 else 0
    withWrite vm dst result fun rf => stepOk { vm with registers := rf.updateFlags result }
  | Instruction.equal dst src1 src2 =>
    withReg vm src1 fun v1 => withReg vm src2 fun v2 =>
    let result : Int := if v1 = v2 then 1 else 0
    withWrite vm dst result fun rf => stepOk { vm with registers := rf.updateFlags result }
  | Instruction.lessThan dst src1 src2 =>
    withReg vm src1 fun v1 => withReg vm src2 fun v2 =>
    let result : Int := if v1 < v2 then 1 else 0
    withWrite vm dst result fun rf => stepOk { vm with registers := rf.updateFlags result }
  | Instruction.halt => some (vm, Except.error ("HALT"))
  | Instruction.nop => stepOk vm
  | Instruction.debug _ => stepOk vm
  | _ => some (vm, Except.error ("Unimplemented instruction"))

/-- Execute a list of instructions in order, threading the state through
recoverable errors (`none` only on a panic). -/
def execSeq : List Instruction → VM → Option VM
  | [], vm => some vm
  | i :: rest, vm =>
    match vm.execute i with
    | none => none
    | some (vm1, _) => execSeq rest vm1

/-- Execute a list of instructions, requiring every one of them to complete
successfully (result `Ok(())`). -/
def execSeqOk : List Instruction → VM → Option VM
  | [], vm => some vm
  | i :: rest, vm =>
    match vm.execute i with
    | some (vm1, Except.ok _) => execSeqOk rest vm1
    | _ => none

/-- Call `reverse_last` `n` times, keeping the state a failing call leaves
behind (a failing `reverse_last` does not change the state). -/
def reverseCalls : Nat → VM → Option VM
  | 0, vm => some vm
  | n + 1, vm =>
    match vm.reverseLast with
    | none => none
    | some (vm1, _) => reverseCalls n vm1

/-- Observation function: the byte a page map holds at tape position `p`
(0 for absent pages).  Uses mathematical floor division, which agrees with
the source's truncated division wherever the source does not panic. -/
def pagesByte (pages : Int → Option Page) (p : Int) : Nat :=
  match pages (p / 4096) with
  | none => 0
  | some pg => pg.data ((p % 4096).toNat)

/-- Observation function: the byte the tape holds at position `p`. -/
def Tape.byteAt (t : Tape) (p : Int) : Nat :=
  pagesByte t.pages p

/-- The instructions whose `execute` arm rewinds the journal (`Rewind` and
`RewindN`); every other arm only appends to it. -/
def Instruction.isRewindFamily : Instruction → Bool
  | Instruction.rewind _ => true
  | Instruction.rewindN _ => true
  | _ => false

/-- Whether an execution result is `Ok(())`. -/
def resultOk : Except String Unit → Bool
  | Except.ok _ => true
  | Except.error _ => false

/-- Observation function: rewind the journal down to a prefix of length `cp`
and record the head position and remaining trail of the result (`none` when
that rewind panics).  Used to state that forward steps preserve what a later
rewind to a checkpointed length restores. -/
def rewindHeadTo (t : Tape) (cp : Nat) : Option (Int × List TrailOp) :=
  (t.rewindN (t.trail.length - cp)).map (fun x => (x.head, x.trail))

/-- A successfully completing instruction sequence that `reverse_last` fails
to invert: `Rewind "c"` pops only one of `Store`'s two trail entries, leaving
the top history frame's recorded trail length (5) above the journal length
(4), so the first `reverse_last` underflows the `usize` subtraction and
drains the whole journal. -/
def c1Program : List Instruction :=
  [Instruction.checkpoint ("a"), Instruction.tapeAdvance 1, Instruction.checkpoint ("c"),
   Instruction.rewind ("a"), Instruction.store 0 0, Instruction.rewind ("c")]

/-- A segmented tape holding one freshly created segment (its creation is the
only trail entry). -/
def c3State : SegmentedTape :=
  (SegmentedTape.new.createSegment ("s") 10 SegmentType.data).1

/-- The segmented tape after popping and inverting the `SegmentCreate` trail
entry of `c3State` the way every rewind path does (`Tape::rewind_n`). -/
def c3After : SegmentedTape :=
  { c3State with tape := (c3State.tape.rewindN 1).getD c3State.tape }

/-- A segmented tape with one 4-byte segment, for exercising the bounds
checks. -/
def c7St : SegmentedTape :=
  (SegmentedTape.new.createSegment ("seg") 4 SegmentType.data).1

/-- The segment record stored in `c7St`. -/
def c7Seg : Segment :=
  { name := "seg", start := 0, size := 4, segmentType := SegmentType.data, indices := [] }

/-- The VM obtained by executing `Nop` on a fresh VM. -/
def c5Vm : VM :=
  match VM.new.execute Instruction.nop with
  | some (vm, _) => vm
  | none => VM.new

/-- A fresh VM whose symbol table resolves the label `f` to instruction
index 5. -/
def c6Vm : VM :=
  { VM.new with symbols := fun n => if n = "f" then some 5 else none }

/-- `c6Vm` after executing `Call "f"`. -/
def c6Vm1 : VM :=
  match c6Vm.execute (Instruction.call ("f")) with
  | some (vm, _) => vm
  | none => c6Vm

/-- `c6Vm1` after executing `Return`. -/
def c6Vm2 : VM :=
  match c6Vm1.execute Instruction.ret with
  | some (vm, _) => vm
  | none => c6Vm1

/-- A fresh VM after executing `Checkpoint "c"`. -/
def c2Vm1 : VM :=
  match VM.new.execute (Instruction.checkpoint ("c")) with
  | some (vm, _) => vm
  | none => VM.new

/-- `c2Vm1` after executing `Rewind "c"`. -/
def c2Vm3 : VM :=
  match c2Vm1.execute (Instruction.rewind ("c")) with
  | some (vm, _) => vm
  | none => c2Vm1

/-- A fresh VM after executing `TapeRead R0, 1`. -/
def c8Vm : VM :=
  match VM.new.execute (Instruction.tapeRead 0 1) with
  | some (vm, _) => vm
  | none => VM.new

/-- The conclusion of claim C10 for register `r`: the fresh-VM segment
layout, the initial stack/frame pointers, and the effect of the first
`Push r` — its eight bytes are journaled at positions `2^20 − 8 .. 2^20 − 1`,
inside the `code` segment's address range `[0, 2^20)` and outside the
`stack` segment's address range `[2^20, 2^21)`. -/
def c10Concl (r : Nat) : Prop :=
  ((VM.new.tape.segments.lookup ("code")).map (fun s => (s.start, s.size)) =
    some (0, 1048576)) ∧
  ((VM.new.tape.segments.lookup ("stack")).map (fun s => (s.start, s.size)) =
    some (1048576, 1048576)) ∧
  ((VM.new.tape.segments.lookup ("heap")).map (fun s => (s.start, s.size)) =
    some (2097152, 1048576)) ∧
  VM.new.sp = 1048576 ∧ VM.new.fp = 1048576 ∧
  ((VM.new.execute (Instruction.push r)).map (fun p => resultOk p.2) = some true) ∧
  ((VM.new.execute (Instruction.push r)).map (fun p => p.1.sp) = some 1048568) ∧
  ((VM.new.execute (Instruction.push r)).map (fun p => p.1.tape.tape.trail.head?) =
    some (some (TrailOp.write 1048568 (List.replicate 8 0) (List.replicate 8 0)))) ∧
  (∀ i : Nat, i < 8 →
    ((0 : Int) ≤ 1048568 + (i : Int) ∧ 1048568 + (i : Int) < 0 + 1048576) ∧
    ¬ ((1048576 : Int) ≤ 1048568 + (i : Int) ∧ 1048568 + (i : Int) < 1048576 + 1048576))

/-! ### Arithmetic bridge lemmas

Rust's `/` and `%` on `i64` truncate toward zero (`Int.tdiv` / `Int.tmod`),
while Lean's `/` and `%` on `Int` are Euclidean.  The loops of the tape only
proceed without panicking when the truncated remainder is non-negative, and
in that regime the two conventions agree. -/

lemma tmod4096_lb (a : Int) : -4096 < a.tmod 4096 := by
  cases a with
  | ofNat m =>
    have : (0 : Int) ≤ Int.ofNat m % 4096 := Int.emod_nonneg _ (by norm_num)
    simp [Int.tmod]
    omega
  | negSucc m =>
    have h1 : (m + 1) % 4096 < 4096 := Nat.mod_lt _ (by norm_num)
    simp [Int.tmod]
    omega

lemma tmod4096_ub (a : Int) : a.tmod 4096 < 4096 :=
  Int.tmod_lt_of_pos a (by norm_num)

lemma tdiv_tmod_eq_of_nonneg (a : Int) (h : 0 ≤ a.tmod 4096) :
    a.tdiv 4096 = a / 4096 ∧ a.tmod 4096 = a % 4096 := by
  have h1 := Int.tdiv_add_tmod a 4096
  have h2 := tmod4096_ub a
  have h3 := (Int.ediv_emod_unique (a := a) (b := 4096) (q := a.tdiv 4096)
    (r := a.tmod 4096) (by norm_num)).2 ⟨by omega, h, h2⟩
  exact ⟨h3.1.symm, h3.2.symm⟩

lemma tmod4096_cases (a : Int) :
    a.tmod 4096 = a % 4096 ∨ a.tmod 4096 = a % 4096 - 4096 := by
  have h1 := Int.tdiv_add_tmod a 4096
  have h2 := tmod4096_ub a
  have h3 := tmod4096_lb a
  have h4 := Int.ediv_add_emod a 4096
  have h5 : 0 ≤ a % 4096 := Int.emod_nonneg _ (by norm_num)
  have h6 : a % 4096 < 4096 := Int.emod_lt_of_pos _ (by norm_num)
  omega

lemma tmod4096_nonneg_of_emod_zero (a : Int) (h : a % 4096 = 0) : a.tmod 4096 = 0 := by
  rcases tmod4096_cases a with h1 | h1
  · omega
  · have := tmod4096_lb a; omega

lemma usizeOff_lt_iff (a : Int) : usizeOfI64 (a.tmod 4096) < 4096 ↔ 0 ≤ a.tmod 4096 := by
  have h1 := tmod4096_lb a
  have h2 := tmod4096_ub a
  unfold usizeOfI64
  omega

lemma usizeOff_eq (a : Int) (h : 0 ≤ a.tmod 4096) :
    usizeOfI64 (a.tmod 4096) = (a % 4096).toNat := by
  have h2 := tmod4096_ub a
  have h3 := (tdiv_tmod_eq_of_nonneg a h).2
  unfold usizeOfI64
  omega

lemma wrap64_id (x : Int) (h1 : -(2 ^ 63) ≤ x) (h2 : x < 2 ^ 63) : wrap64 x = x := by
  unfold wrap64
  omega

/-! ### List helpers -/

lemma getD_drop (l : List Nat) (n i : Nat) : (l.drop n).getD i 0 = l.getD (n + i) 0 := by
  simp [List.getD_eq_getElem?_getD, List.getElem?_drop]

@[simp] lemma Tape.seek_pages (t : Tape) (p : Int) : (t.seek p).pages = t.pages := rfl

@[simp] lemma Tape.seek_head (t : Tape) (p : Int) : (t.seek p).head = p := rfl

@[simp] lemma Tape.byteAt_seek (t : Tape) (p q : Int) : (t.seek p).byteAt q = t.byteAt q := rfl

lemma drop_one_append {α : Type} (a : α) (l₁ l₂ : List α) :
    (a :: (l₁ ++ l₂)).drop (1 + l₁.length) = l₂ := by
  have h1 : a :: (l₁ ++ l₂) = (a :: l₁) ++ l₂ := rfl
  have h2 : 1 + l₁.length = (a :: l₁).length := by
    simp only [List.length_cons]
    omega
  rw [h1, h2, List.drop_left]

/-! ### Write-loop characterisation

A successful run of the write loop updates exactly the bytes of the written
range, makes every page of that range present, and preserves the presence of
all other pages. -/

lemma writeAux_spec : ∀ (fuel : Nat) (data : List Nat) (pages : Int → Option Page) (pos : Int)
    (pages' : Int → Option Page), data.length ≤ fuel →
    writeAux pages fuel pos data = some pages' →
    (∀ p : Int, pos ≤ p → p < pos + (data.length : Int) → (pages' (p / 4096)).isSome ∧
        pagesByte pages' p = data.getD (p - pos).toNat 0)
    ∧ (∀ p : Int, (p < pos ∨ pos + (data.length : Int) ≤ p) →
        pagesByte pages' p = pagesByte pages p)
    ∧ (∀ q : Int, (pages q).isSome → (pages' q).isSome) := by
  intro fuel
  induction fuel with
  | zero =>
    intro data pages pos pages' hlen h
    unfold writeAux at h
    split at h
    · next hemp =>
      have hd : data = [] := by simpa [List.isEmpty_iff] using hemp
      subst hd
      simp only [Option.some.injEq] at h
      subst h
      refine ⟨?_, ?_, ?_⟩
      · intro p h1 h2; simp at h2; omega
      · intro p _; rfl
      · intro q hq; exact hq
    · exact Option.noConfusion h
  | succ fuel ih =>
    intro data pages pos pages' hlen h
    unfold writeAux at h
    by_cases hemp : data.isEmpty
    · rw [if_pos hemp] at h
      have hd : data = [] := by simpa [List.isEmpty_iff] using hemp
      subst hd
      simp only [Option.some.injEq] at h
      subst h
      refine ⟨?_, ?_, ?_⟩
      · intro p h1 h2; simp at h2; omega
      · intro p _; rfl
      · intro q hq; exact hq
    · rw [if_neg hemp] at h
      simp only at h
      split at h
      case neg.isFalse => exact Option.noConfusion h
      case neg.isTrue hlt =>
        -- the truncated remainder is non-negative, so truncated and
        -- Euclidean division agree at `pos`
        have htm : 0 ≤ pos.tmod 4096 := (usizeOff_lt_iff pos).1 hlt
        obtain ⟨hdiv, hmod⟩ := tdiv_tmod_eq_of_nonneg pos htm
        have hoff : usizeOfI64 (pos.tmod 4096) = (pos % 4096).toNat := usizeOff_eq pos htm
        rw [hdiv, hoff] at h
        set off := (pos % 4096).toNat with hoffdef
        set idx := pos / 4096 with hidxdef
        have hofflt : off < 4096 := by rw [hoff] at hlt; exact hlt
        have hoffeq : (off : Int) = pos % 4096 := by
          have := Int.emod_nonneg pos (b := 4096) (by norm_num)
          omega
        have hposdecomp : pos = 4096 * idx + (off : Int) := by
          have := Int.ediv_add_emod pos 4096
          omega
        have hdne : data.length ≠ 0 := by
          intro h0; exact hemp (by simpa [List.isEmpty_iff] using List.eq_nil_of_length_eq_zero h0)
        set tw := min data.length (4096 - off) with htwdef
        have htw1 : 1 ≤ tw := by omega
        have htw2 : tw ≤ 4096 - off := by omega
        have htw3 : tw ≤ data.length := by omega
        set page := (pages idx).getD { data := fun _ => 0, cowRefs := 0 } with hpagedef
        set newData : Nat → Nat := fun j =>
          if off ≤ j ∧ j < off + tw then data.getD (j - off) 0 else page.data j with hnd
        set page' : Page :=
          if page.cowRefs > 0 then { data := newData, cowRefs := 0 }
          else { page with data := newData } with hpage'
        have hpage'data : page'.data = newData := by
          rw [hpage']; split <;> rfl
        set pagesMid : Int → Option Page := fun i => if i = idx then some page' else pages i
          with hmid
        have hrec : writeAux pagesMid fuel (pos + (tw : Int)) (data.drop tw) = some pages' := h
        have hlen' : (data.drop tw).length ≤ fuel := by
          simp only [List.length_drop]; omega
        obtain ⟨ih1, ih2, ih3⟩ := ih (data.drop tw) pagesMid (pos + (tw : Int)) pages' hlen' hrec
        have hdroplen : ((data.drop tw).length : Int) = (data.length : Int) - tw := by
          simp only [List.length_drop]; omega
        -- byte view of the intermediate page map
        have hmidbyte : ∀ p : Int, pagesByte pagesMid p =
            if pos ≤ p ∧ p < pos + (tw : Int) then data.getD (p - pos).toNat 0
            else pagesByte pages p := by
          intro p
          by_cases hpq : p / 4096 = idx
          · have hprange : 4096 * idx ≤ p ∧ p < 4096 * idx + 4096 := by
              have := Int.ediv_add_emod p 4096
              have := Int.emod_nonneg p (b := 4096) (by norm_num)
              have := Int.emod_lt_of_pos p (b := 4096) (by norm_num)
              omega
            have hj : ((p % 4096).toNat : Int) = p - 4096 * idx := by
              have := Int.ediv_add_emod p 4096
              have := Int.emod_nonneg p (b := 4096) (by norm_num)
              omega
            unfold pagesByte
            rw [hpq]
            simp only [hmid, if_pos rfl, hpage'data, hnd]
            by_cases hin : pos ≤ p ∧ p < pos + (tw : Int)
            · rw [if_pos hin]
              have hcond : off ≤ (p % 4096).toNat ∧ (p % 4096).toNat < off + tw := by omega
              rw [if_pos hcond]
              congr 1
              omega
            · rw [if_neg hin]
              have hcond : ¬ (off ≤ (p % 4096).toNat ∧ (p % 4096).toNat < off + tw) := by
                omega
              rw [if_neg hcond]
              rw [hpagedef]
              cases hpg : pages idx with
              | none => simp [hpq, hpg]
              | some pg => simp [hpq, hpg]
          · have hout : ¬ (pos ≤ p ∧ p < pos + (tw : Int)) := by
              intro hin
              apply hpq
              have := Int.ediv_add_emod p 4096
              have := Int.emod_nonneg p (b := 4096) (by norm_num)
              have := Int.emod_lt_of_pos p (b := 4096) (by norm_num)
              omega
            rw [if_neg hout]
            unfold pagesByte
            simp only [hmid, if_neg hpq]
        have hmidsome : ∀ q : Int, (pages q).isSome → (pagesMid q).isSome := by
          intro q hq
          simp only [hmid]
          split
          · rfl
          · exact hq
        refine ⟨?_, ?_, ?_⟩
        · -- bytes and presence inside the written range
          intro p h1 h2
          by_cases hfirst : p < pos + (tw : Int)
          · constructor
            · have : (pagesMid (p / 4096)).isSome := by
                have hpq : p / 4096 = idx := by
                  have := Int.ediv_add_emod p 4096
                  have := Int.emod_nonneg p (b := 4096) (by norm_num)
                  have := Int.emod_lt_of_pos p (b := 4096) (by norm_num)
                  omega
                simp [hmid, hpq]
              exact ih3 _ this
            · have hbyte := ih2 p (by omega)
              rw [hbyte, hmidbyte p, if_pos ⟨h1, hfirst⟩]
          · have h2' : p < pos + (tw : Int) + ((data.drop tw).length : Int) := by omega
            obtain ⟨hs, hb⟩ := ih1 p (by omega) h2'
            refine ⟨hs, ?_⟩
            rw [hb, getD_drop]
            congr 1
            omega
        · -- bytes outside the written range are untouched
          intro p hout
          have hbyte := ih2 p (by omega)
          rw [hbyte, hmidbyte p, if_neg (by omega)]
        · intro q hq
          exact ih3 q (hmidsome q hq)

lemma writeAux_align (fuel : Nat) (data : List Nat) (pages : Int → Option Page) (pos : Int)
    (pages' : Int → Option Page) (hd : ¬ data.isEmpty)
    (h : writeAux pages fuel pos data = some pages') : 0 ≤ pos.tmod 4096 := by
  cases fuel with
  | zero => unfold writeAux at h; rw [if_neg hd] at h; exact Option.noConfusion h
  | succ fuel =>
    unfold writeAux at h
    rw [if_neg hd] at h
    simp only at h
    split at h
    · next hlt => exact (usizeOff_lt_iff pos).1 hlt
    · exact Option.noConfusion h

/-! ### Read-loop characterisation -/

lemma readAux_present : ∀ (fuel lenLeft : Nat) (pages : Int → Option Page) (pos : Int)
    (acc : List Nat), lenLeft ≤ fuel →
    (lenLeft ≠ 0 → 0 ≤ pos.tmod 4096) →
    (∀ p : Int, pos ≤ p → p < pos + (lenLeft : Int) → (pages (p / 4096)).isSome) →
    readAux pages fuel pos lenLeft acc =
      some (acc ++ (List.range lenLeft).map (fun i : Nat => pagesByte pages (pos + (i : Int)))) := by
  intro fuel
  induction fuel with
  | zero =>
    intro lenLeft pages pos acc hlen _ _
    have h0 : lenLeft = 0 := by omega
    subst h0
    simp [readAux]
  | succ fuel ih =>
    intro lenLeft pages pos acc hlen halign hpres
    by_cases h0 : lenLeft = 0
    · subst h0; simp [readAux]
    · have htm : 0 ≤ pos.tmod 4096 := halign h0
      obtain ⟨hdiv, hmod⟩ := tdiv_tmod_eq_of_nonneg pos htm
      have hoff : usizeOfI64 (pos.tmod 4096) = (pos % 4096).toNat := usizeOff_eq pos htm
      have hpos : (pages (pos / 4096)).isSome := hpres pos (le_refl pos) (by omega)
      obtain ⟨pg, hpg⟩ := Option.isSome_iff_exists.1 hpos
      set off := (pos % 4096).toNat with hoffdef
      have hoffeq : (off : Int) = pos % 4096 := by
        have := Int.emod_nonneg pos (b := 4096) (by norm_num)
        omega
      have hofflt : off < 4096 := by
        have := Int.emod_lt_of_pos pos (b := 4096) (by norm_num)
        omega
      unfold readAux
      rw [if_neg h0, hdiv, hoff]
      simp only [hpg]
      rw [if_pos hofflt]
      set avail := min (4096 - off) lenLeft with havaildef
      have havail1 : 1 ≤ avail := by omega
      have havail2 : avail ≤ lenLeft := by omega
      have hposdecomp : pos = 4096 * (pos / 4096) + (off : Int) := by
        have := Int.ediv_add_emod pos 4096
        omega
      have hsamepage : ∀ i : Nat, i < avail →
          (pos + (i : Int)) / 4096 = pos / 4096 ∧
          ((pos + (i : Int)) % 4096).toNat = off + i := by
        intro i hi
        have := Int.ediv_add_emod (pos + (i : Int)) 4096
        have := Int.emod_nonneg (pos + (i : Int)) (b := 4096) (by norm_num)
        have := Int.emod_lt_of_pos (pos + (i : Int)) (b := 4096) (by norm_num)
        constructor <;> omega
      have hchunk : (List.range avail).map (fun i : Nat => pg.data (off + i)) =
          (List.range avail).map (fun i : Nat => pagesByte pages (pos + (i : Int))) := by
        apply List.map_congr_left
        intro i hi
        have hi' : i < avail := List.mem_range.1 hi
        obtain ⟨hq, hr⟩ := hsamepage i hi'
        unfold pagesByte
        rw [hq, hpg, hr]
      have halign' : lenLeft - avail ≠ 0 → 0 ≤ (pos + (avail : Int)).tmod 4096 := by
        intro hne
        have havail3 : avail = 4096 - off := by omega
        apply le_of_eq
        symm
        apply tmod4096_nonneg_of_emod_zero
        omega
      have hpres' : ∀ p : Int, pos + (avail : Int) ≤ p →
          p < pos + (avail : Int) + ((lenLeft - avail : Nat) : Int) →
          (pages (p / 4096)).isSome := by
        intro p h1 h2
        exact hpres p (by omega) (by omega)
      rw [ih (lenLeft - avail) pages (pos + (avail : Int))
        (acc ++ (List.range avail).map (fun i : Nat => pg.data (off + i))) (by omega) halign' hpres']
      congr 1
      rw [hchunk, List.append_assoc]
      congr 1
      have hsplit : lenLeft = avail + (lenLeft - avail) := by omega
      conv_rhs => rw [hsplit]
      rw [List.range_add, List.map_append]
      congr 1
      rw [List.map_map]
      apply List.map_congr_left
      intro i _
      simp only [Function.comp]
      congr 1
      push_cast
      ring

lemma readAux_length : ∀ (fuel lenLeft : Nat) (pages : Int → Option Page) (pos : Int)
    (acc : List Nat), lenLeft ≤ fuel → 0 ≤ pos →
    ∃ bs, readAux pages fuel pos lenLeft acc = some bs ∧ bs.length = acc.length + lenLeft := by
  intro fuel
  induction fuel with
  | zero =>
    intro lenLeft pages pos acc hlen _
    have h0 : lenLeft = 0 := by omega
    subst h0
    exact ⟨acc, by simp [readAux]⟩
  | succ fuel ih =>
    intro lenLeft pages pos acc hlen hpos
    by_cases h0 : lenLeft = 0
    · subst h0; exact ⟨acc, by simp [readAux]⟩
    · have htm : 0 ≤ pos.tmod 4096 := Int.tmod_nonneg _ hpos
      have hoff : usizeOfI64 (pos.tmod 4096) = (pos % 4096).toNat := usizeOff_eq pos htm
      have hofflt : (pos % 4096).toNat < 4096 := by
        have := Int.emod_lt_of_pos pos (b := 4096) (by norm_num)
        omega
      unfold readAux
      rw [if_neg h0, hoff]
      cases hpg : pages (pos.tdiv 4096) with
      | some pg =>
        simp only [hpg]
        rw [if_pos hofflt]
        set avail := min (4096 - (pos % 4096).toNat) lenLeft with ha
        have havail1 : 1 ≤ avail := by omega
        obtain ⟨bs, hbs, hlenbs⟩ := ih (lenLeft - avail) pages (pos + (avail : Int))
          (acc ++ (List.range avail).map (fun i : Nat => pg.data ((pos % 4096).toNat + i)))
          (by omega) (by omega)
        rw [hbs]
        refine ⟨bs, rfl, ?_⟩
        rw [hlenbs]
        simp only [List.length_append, List.length_map, List.length_range]
        omega
      | none =>
        simp only [hpg]
        set zeros := min lenLeft 4096 with hz
        have hzeros : 1 ≤ zeros := by omega
        obtain ⟨bs, hbs, hlenbs⟩ := ih (lenLeft - zeros) pages (pos + (zeros : Int))
          (acc ++ List.replicate zeros 0) (by omega) (by omega)
        rw [hbs]
        refine ⟨bs, rfl, ?_⟩
        rw [hlenbs]
        simp only [List.length_append, List.length_replicate]
        omega

/-! ### Tape-level wrappers -/

lemma Tape.read_present (t : Tape) (len : Nat)
    (halign : len ≠ 0 → 0 ≤ t.head.tmod 4096)
    (hpres : ∀ p : Int, t.head ≤ p → p < t.head + (len : Int) → (t.pages (p / 4096)).isSome) :
    t.read len = some ((List.range len).map (fun i : Nat => t.byteAt (t.head + (i : Int)))) := by
  unfold Tape.read
  rw [readAux_present len len t.pages t.head [] (le_refl len) halign hpres]
  rfl

lemma Tape.read_length (t : Tape) (len : Nat) (h : 0 ≤ t.head) :
    ∃ bs, t.read len = some bs ∧ bs.length = len := by
  obtain ⟨bs, h1, h2⟩ := readAux_length len len t.pages t.head [] (le_refl len) h
  exact ⟨bs, h1, by simpa using h2⟩

/-- Inversion of a successful `Tape::write`: the journal gains exactly one
`Write` entry, the head, marks and checkpoints are untouched, the written
range holds the new bytes on present pages, and every other byte and every
previously present page is preserved. -/
lemma Tape.write_inv (t : Tape) (data : List Nat) (t' : Tape) (h : t.write data = some t') :
    t'.head = t.head ∧ t'.marks = t.marks ∧ t'.checkpoints = t.checkpoints ∧
    (∃ old, t'.trail = TrailOp.write t.head old data :: t.trail) ∧
    (∀ p : Int, t.head ≤ p → p < t.head + (data.length : Int) →
      (t'.pages (p / 4096)).isSome ∧ t'.byteAt p = data.getD (p - t.head).toNat 0) ∧
    (∀ p : Int, (p < t.head ∨ t.head + (data.length : Int) ≤ p) → t'.byteAt p = t.byteAt p) ∧
    (∀ q : Int, (t.pages q).isSome → (t'.pages q).isSome) ∧
    (¬ data.isEmpty → 0 ≤ t.head.tmod 4096) := by
  unfold Tape.write at h
  split at h
  · exact Option.noConfusion h
  · next old hold =>
    split at h
    · exact Option.noConfusion h
    · next pages' hpages =>
      simp only [Option.some.injEq] at h
      subst h
      obtain ⟨h1, h2, h3⟩ := writeAux_spec data.length data t.pages t.head pages'
        (le_refl _) hpages
      refine ⟨rfl, rfl, rfl, ⟨old, rfl⟩, ?_, ?_, ?_, ?_⟩
      · intro p hp1 hp2; exact h1 p hp1 hp2
      · intro p hp; exact h2 p hp
      · exact h3
      · intro hd; exact writeAux_align data.length data t.pages t.head pages' hd hpages

lemma Tape.write_trail (t : Tape) (data : List Nat) (t' : Tape) (h : t.write data = some t') :
    ∃ old, t'.trail = TrailOp.write t.head old data :: t.trail :=
  (t.write_inv data t' h).2.2.2.1

lemma Tape.writeRaw_inv (t : Tape) (data : List Nat) (t' : Tape) (h : t.writeRaw data = some t') :
    t'.head = t.head ∧ t'.marks = t.marks ∧ t'.checkpoints = t.checkpoints ∧
    t'.trail = t.trail := by
  unfold Tape.writeRaw at h
  split at h
  · exact Option.noConfusion h
  · simp only [Option.some.injEq] at h
    subst h
    exact ⟨rfl, rfl, rfl, rfl⟩

lemma Tape.undoOperation_trail (t : Tape) (op : TrailOp) (t' : Tape)
    (h : t.undoOperation op = some t') : t'.trail = t.trail := by
  unfold Tape.undoOperation at h
  cases op with
  | write pos old nw =>
    have := Tape.writeRaw_inv { t with head := pos } old t' h
    simpa using this.2.2.2
  | seek o n => simp only [Option.some.injEq] at h; subst h; rfl
  | mark l p => simp only [Option.some.injEq] at h; subst h; rfl
  | segmentCreate a b c => simp only [Option.some.injEq] at h; subst h; rfl
  | segmentModify a b c d => simp only [Option.some.injEq] at h; subst h; rfl

lemma Tape.rewindN_trail_length : ∀ (n : Nat) (t t' : Tape), t.rewindN n = some t' →
    t'.trail.length = t.trail.length - min n t.trail.length := by
  intro n
  induction n with
  | zero =>
    intro t t' h
    simp only [Tape.rewindN, Option.some.injEq] at h
    subst h
    simp
  | succ n ih =>
    intro t t' h
    unfold Tape.rewindN at h
    split at h
    · next heq =>
      simp only [Option.some.injEq] at h
      subst h
      simp [heq]
    · next op rest heq =>
      split at h
      · exact Option.noConfusion h
      · next t1 hundo =>
        have htr := Tape.undoOperation_trail _ _ _ hundo
        have := ih t1 t' h
        rw [this, htr]
        simp only [heq]
        simp only [List.length_cons]
        omega

lemma Tape.rewindN_trail_le (n : Nat) (t t' : Tape) (h : t.rewindN n = some t') :
    t'.trail.length ≤ t.trail.length := by
  have := Tape.rewindN_trail_length n t t' h
  omega

lemma Tape.rewind_trail_le (t : Tape) (name : String) (t' : Tape) (r : Except String Unit)
    (h : t.rewind name = some (t', r)) : t'.trail.length ≤ t.trail.length := by
  unfold Tape.rewind at h
  split at h
  · simp only [Option.some.injEq, Prod.mk.injEq] at h
    rw [h.1]
  · split at h
    · exact Option.noConfusion h
    · next t1 hrw =>
      simp only [Option.some.injEq, Prod.mk.injEq] at h
      rw [← h.1]
      exact Tape.rewindN_trail_le _ _ _ hrw

lemma Tape.rewind_found (t : Tape) (name : String) (t' : Tape) (cp : Nat)
    (hcp : t.checkpoints name = some cp) (hle : cp ≤ t.trail.length)
    (h : t.rewind name = some (t', Except.ok ())) : t'.trail.length = cp := by
  unfold Tape.rewind at h
  rw [hcp] at h
  dsimp only at h
  cases hrw : t.rewindN (t.trail.length - cp) with
  | none => rw [hrw] at h; exact Option.noConfusion h
  | some t1 =>
    rw [hrw] at h
    simp only [Option.some.injEq, Prod.mk.injEq] at h
    have := Tape.rewindN_trail_length _ _ _ hrw
    rw [← h.1]
    omega

/-! ### Head restoration under rewinding

Undoing a trail entry never consults the page contents: whether a `Write`
undo succeeds, and the head and trail it produces, depend only on the entry
and the trail below it.  Consequently rewinding to a fixed prefix length
yields the same head and trail before and after any forward tape
operation. -/

lemma readAux_some_length : ∀ (fuel lenLeft : Nat) (pages : Int → Option Page) (pos : Int)
    (acc bs : List Nat), readAux pages fuel pos lenLeft acc = some bs →
    bs.length = acc.length + lenLeft := by
  intro fuel
  induction fuel with
  | zero =>
    intro lenLeft pages pos acc bs h
    unfold readAux at h
    split at h
    · next h0 =>
      simp only [Option.some.injEq] at h
      subst h
      omega
    · exact Option.noConfusion h
  | succ fuel ih =>
    intro lenLeft pages pos acc bs h
    unfold readAux at h
    by_cases h0 : lenLeft = 0
    · rw [if_pos h0] at h
      simp only [Option.some.injEq] at h
      subst h
      omega
    · rw [if_neg h0] at h
      dsimp only at h
      cases hpg : pages (pos.tdiv 4096) with
      | some pg =>
        rw [hpg] at h
        dsimp only at h
        split at h
        · have := ih _ _ _ _ _ h
          simp only [List.length_append, List.length_map, List.length_range] at this
          omega
        · exact Option.noConfusion h
      | none =>
        rw [hpg] at h
        dsimp only at h
        have := ih _ _ _ _ _ h
        simp only [List.length_append, List.length_replicate] at this
        omega

lemma Tape.read_some_length (t : Tape) (len : Nat) (old : List Nat)
    (h : t.read len = some old) : old.length = len := by
  unfold Tape.read at h
  have := readAux_some_length len len t.pages t.head [] old h
  simpa using this

lemma writeRawAux_isSome_congr : ∀ (fuel : Nat) (pos : Int) (data : List Nat)
    (p₁ p₂ : Int → Option Page),
    (writeRawAux p₁ fuel pos data).isSome = (writeRawAux p₂ fuel pos data).isSome := by
  intro fuel
  induction fuel with
  | zero =>
    intro pos data p₁ p₂
    unfold writeRawAux
    by_cases hd : data.isEmpty
    · rw [if_pos hd, if_pos hd]
      rfl
    · rw [if_neg hd, if_neg hd]
  | succ fuel ih =>
    intro pos data p₁ p₂
    unfold writeRawAux
    by_cases hd : data.isEmpty
    · rw [if_pos hd, if_pos hd]
      rfl
    · rw [if_neg hd, if_neg hd]
      dsimp only
      by_cases hoff : usizeOfI64 (pos.tmod 4096) < 4096
      · rw [if_pos hoff, if_pos hoff]
        exact ih _ _ _ _
      · rw [if_neg hoff, if_neg hoff]

lemma writeAux_isSome_writeRawAux : ∀ (fuel : Nat) (pos : Int) (data data' : List Nat)
    (p₁ p₂ : Int → Option Page), data'.length = data.length →
    (writeAux p₁ fuel pos data).isSome = true →
    (writeRawAux p₂ fuel pos data').isSome = true := by
  intro fuel
  induction fuel with
  | zero =>
    intro pos data data' p₁ p₂ hlen h
    unfold writeAux at h
    unfold writeRawAux
    by_cases hd : data.isEmpty
    · have hd' : data'.isEmpty = true := by
        rw [List.isEmpty_iff] at hd ⊢
        rw [← List.length_eq_zero, hlen, List.length_eq_zero]
        exact hd
      rw [if_pos hd']
      rfl
    · rw [if_neg hd] at h
      simp at h
  | succ fuel ih =>
    intro pos data data' p₁ p₂ hlen h
    unfold writeAux at h
    unfold writeRawAux
    by_cases hd : data.isEmpty
    · have hd' : data'.isEmpty = true := by
        rw [List.isEmpty_iff] at hd ⊢
        rw [← List.length_eq_zero, hlen, List.length_eq_zero]
        exact hd
      rw [if_pos hd']
      rfl
    · have hd' : ¬ data'.isEmpty = true := by
        rw [List.isEmpty_iff] at hd ⊢
        intro hh
        apply hd
        rw [← List.length_eq_zero, ← hlen, List.length_eq_zero]
        exact hh
      rw [if_neg hd] at h
      rw [if_neg hd']
      dsimp only at h ⊢
      by_cases hoff : usizeOfI64 (pos.tmod 4096) < 4096
      · rw [if_pos hoff] at h
        rw [if_pos hoff]
        rw [hlen]
        refine ih _ _ _ _ _ ?_ h
        simp [hlen]
      · rw [if_neg hoff] at h
        simp at h

lemma rewindN_pair_congr : ∀ (n : Nat) (t₁ t₂ : Tape), t₁.head = t₂.head →
    t₁.trail = t₂.trail →
    (t₁.rewindN n).map (fun x => (x.head, x.trail)) =
    (t₂.rewindN n).map (fun x => (x.head, x.trail)) := by
  intro n
  induction n with
  | zero =>
    intro t₁ t₂ hh ht
    simp [Tape.rewindN, hh, ht]
  | succ n ih =>
    intro t₁ t₂ hh ht
    obtain ⟨pg₁, hd₁, mk₁, tr₁, cp₁⟩ := t₁
    obtain ⟨pg₂, hd₂, mk₂, tr₂, cp₂⟩ := t₂
    dsimp only at hh ht
    subst hh
    subst ht
    unfold Tape.rewindN
    cases tr₁ with
    | nil => rfl
    | cons op rest =>
      dsimp only
      cases op with
      | write pos old nw =>
        dsimp only [Tape.undoOperation]
        unfold Tape.writeRaw
        dsimp only
        have hsome := writeRawAux_isSome_congr old.length pos old pg₁ pg₂
        cases h1 : writeRawAux pg₁ old.length pos old with
        | none =>
          cases h2 : writeRawAux pg₂ old.length pos old with
          | none => rfl
          | some p2 =>
            rw [h1, h2] at hsome
            simp at hsome
        | some p1 =>
          cases h2 : writeRawAux pg₂ old.length pos old with
          | none =>
            rw [h1, h2] at hsome
            simp at hsome
          | some p2 =>
            dsimp only
            exact ih _ _ rfl rfl
      | seek oldPos newPos =>
        dsimp only [Tape.undoOperation]
        exact ih _ _ rfl rfl
      | mark label p =>
        dsimp only [Tape.undoOperation]
        exact ih _ _ rfl rfl
      | segmentCreate a b c =>
        dsimp only [Tape.undoOperation]
        exact ih _ _ rfl rfl
      | segmentModify a b c d =>
        dsimp only [Tape.undoOperation]
        exact ih _ _ rfl rfl

lemma rewindN_cons (t : Tape) (op : TrailOp) (rest : List TrailOp) (n : Nat)
    (h : t.trail = op :: rest) :
    t.rewindN (n + 1) =
      match Tape.undoOperation { t with trail := rest } op with
      | none => none
      | some t' => t'.rewindN n := by
  obtain ⟨pg, hd, mk, tr, cp⟩ := t
  dsimp only at h
  subst h
  rfl

lemma rewindN_seek_step (t : Tape) (p : Int) (n : Nat) :
    (t.seek p).rewindN (n + 1) = t.rewindN n := rfl

lemma rewindN_mark_step (t : Tape) (label : String) (n : Nat) :
    ((t.mark label).rewindN (n + 1)).map (fun x => (x.head, x.trail)) =
    (t.rewindN n).map (fun x => (x.head, x.trail)) := by
  rw [rewindN_cons (t.mark label) (TrailOp.mark label t.head) t.trail n rfl]
  dsimp only [Tape.undoOperation]
  exact rewindN_pair_congr n _ _ rfl rfl

lemma rewindN_write_step (t t' : Tape) (data : List Nat) (n : Nat)
    (h : t.write data = some t') :
    (t'.rewindN (n + 1)).map (fun x => (x.head, x.trail)) =
    (t.rewindN n).map (fun x => (x.head, x.trail)) := by
  unfold Tape.write at h
  cases hrd : t.read data.length with
  | none =>
    rw [hrd] at h
    exact Option.noConfusion h
  | some old =>
    rw [hrd] at h
    dsimp only at h
    cases hw : writeAux t.pages data.length t.head data with
    | none =>
      rw [hw] at h
      exact Option.noConfusion h
    | some pages' =>
      rw [hw] at h
      rw [Option.some.injEq] at h
      subst h
      rw [rewindN_cons _ (TrailOp.write t.head old data) t.trail n rfl]
      dsimp only [Tape.undoOperation]
      unfold Tape.writeRaw
      have hlen : old.length = data.length := Tape.read_some_length t data.length old hrd
      have hsome : (writeRawAux pages' old.length t.head old).isSome = true := by
        rw [hlen]
        exact writeAux_isSome_writeRawAux data.length t.head data old t.pages pages' hlen
          (by rw [hw]; rfl)
      cases hwr : writeRawAux pages' old.length t.head old with
      | none =>
        rw [hwr] at hsome
        simp at hsome
      | some pages'' =>
        dsimp only
        exact rewindN_pair_congr n _ _ rfl rfl

lemma rewindHeadTo_seek (t : Tape) (p : Int) (cp : Nat) (hcp : cp ≤ t.trail.length) :
    rewindHeadTo (t.seek p) cp = rewindHeadTo t cp := by
  unfold rewindHeadTo
  have hlen : (t.seek p).trail.length = t.trail.length + 1 := rfl
  rw [hlen, show t.trail.length + 1 - cp = (t.trail.length - cp) + 1 from by omega,
    rewindN_seek_step]

lemma rewindHeadTo_mark (t : Tape) (label : String) (cp : Nat)
    (hcp : cp ≤ t.trail.length) :
    rewindHeadTo (t.mark label) cp = rewindHeadTo t cp := by
  unfold rewindHeadTo
  have hlen : (t.mark label).trail.length = t.trail.length + 1 := rfl
  rw [hlen, show t.trail.length + 1 - cp = (t.trail.length - cp) + 1 from by omega]
  exact rewindN_mark_step t label (t.trail.length - cp)

lemma rewindHeadTo_write (t t' : Tape) (data : List Nat) (cp : Nat)
    (h : t.write data = some t') (hcp : cp ≤ t.trail.length) :
    rewindHeadTo t' cp = rewindHeadTo t cp := by
  unfold rewindHeadTo
  obtain ⟨old, htr⟩ := Tape.write_trail t data t' h
  have hlen : t'.trail.length = t.trail.length + 1 := by
    rw [htr]
    rfl
  rw [hlen, show t.trail.length + 1 - cp = (t.trail.length - cp) + 1 from by omega]
  exact rewindN_write_step t t' data (t.trail.length - cp) h

lemma rewindHeadTo_checkpoint (t : Tape) (name : String) (cp : Nat) :
    rewindHeadTo (t.checkpoint name) cp = rewindHeadTo t cp := by
  unfold rewindHeadTo
  have hlen : (t.checkpoint name).trail.length = t.trail.length := rfl
  rw [hlen]
  exact rewindN_pair_congr _ _ _ rfl rfl

/-! ### Little-endian round trip -/

lemma toLeBytes8_length (v : Int) : (toLeBytes8 v).length = 8 := rfl

lemma fromLe_toLe (v : Int) (h1 : -(2 ^ 63) ≤ v) (h2 : v < 2 ^ 63) :
    fromLeBytes (toLeBytes8 v) = v := by
  unfold fromLeBytes toLeBytes8 leNat ofUInt64 toUInt64
  simp only [List.foldr]
  omega

lemma range8_map_getD (l : List Nat) (h : l.length = 8) :
    (List.range 8).map (fun i : Nat => l.getD i 0) = l := by
  match l, h with
  | [a0, a1, a2, a3, a4, a5, a6, a7], _ => rfl

/-! ### Per-arm facts about `VM.execute`

Every arm except `Rewind` and `RewindN` pushes exactly one history frame,
never removes journal entries, and leaves every checkpoint entry other than
its own label unchanged. -/

lemma execute_step_facts (vm : VM) (inst : Instruction) (vm' : VM) (r : Except String Unit)
    (hni : inst.isRewindFamily = false) (h : vm.execute inst = some (vm', r)) :
    vm.tape.tape.trail.length ≤ vm'.tape.tape.trail.length ∧
    (∃ f, vm'.historyStack = f :: vm.historyStack) ∧
    ∀ c : String, inst ≠ Instruction.checkpoint c →
      vm'.historyCheckpoints c = vm.historyCheckpoints c ∧
      vm'.tape.tape.checkpoints c = vm.tape.tape.checkpoints c := by
  cases inst
  case rewind l => simp [Instruction.isRewindFamily] at hni
  case rewindN s => simp [Instruction.isRewindFamily] at hni
  case store addr reg =>
    simp only [VM.execute, withReg, withWrite, stepOk, VM.withTape, VM.saveHistoryFrame] at h
    split at h
    · rw [Option.some.injEq, Prod.mk.injEq] at h
      obtain ⟨hvm, -⟩ := h; subst hvm
      exact ⟨le_refl _, ⟨_, rfl⟩, fun c hc => ⟨rfl, rfl⟩⟩
    · split at h
      · rw [Option.some.injEq, Prod.mk.injEq] at h
        obtain ⟨hvm, -⟩ := h; subst hvm
        exact ⟨le_refl _, ⟨_, rfl⟩, fun c hc => ⟨rfl, rfl⟩⟩
      · split at h
        · exact Option.noConfusion h
        · next t2 hw =>
          rw [Option.some.injEq, Prod.mk.injEq] at h
          obtain ⟨hvm, -⟩ := h; subst hvm
          obtain ⟨old, htr⟩ := Tape.write_trail _ _ _ hw
          have hcp := (Tape.write_inv _ _ _ hw).2.2.1
          refine ⟨?_, ⟨_, rfl⟩, fun c hc => ⟨rfl, ?_⟩⟩
          · simp only [htr, Tape.seek, List.length_cons]
            omega
          · simp only [hcp, Tape.seek]
  case push reg =>
    simp only [VM.execute, withReg, withWrite, stepOk, VM.withTape, VM.saveHistoryFrame] at h
    split at h
    · rw [Option.some.injEq, Prod.mk.injEq] at h
      obtain ⟨hvm, -⟩ := h; subst hvm
      refine ⟨?_, ⟨_, rfl⟩, fun c hc => ⟨rfl, rfl⟩⟩
      simp only [Tape.seek, List.length_cons]
      omega
    · split at h
      · exact Option.noConfusion h
      · next t2 hw =>
        rw [Option.some.injEq, Prod.mk.injEq] at h
        obtain ⟨hvm, -⟩ := h; subst hvm
        obtain ⟨old, htr⟩ := Tape.write_trail _ _ _ hw
        have hcp := (Tape.write_inv _ _ _ hw).2.2.1
        refine ⟨?_, ⟨_, rfl⟩, fun c hc => ⟨rfl, ?_⟩⟩
        · simp only [htr, Tape.seek, List.length_cons]
          omega
        · simp only [hcp, Tape.seek]
  case tapeWrite reg len =>
    simp only [VM.execute, withReg, withWrite, stepOk, VM.withTape, VM.saveHistoryFrame] at h
    split at h
    · rw [Option.some.injEq, Prod.mk.injEq] at h
      obtain ⟨hvm, -⟩ := h; subst hvm
      exact ⟨le_refl _, ⟨_, rfl⟩, fun c hc => ⟨rfl, rfl⟩⟩
    · split at h
      · exact Option.noConfusion h
      · next t2 hw =>
        rw [Option.some.injEq, Prod.mk.injEq] at h
        obtain ⟨hvm, -⟩ := h; subst hvm
        obtain ⟨old, htr⟩ := Tape.write_trail _ _ _ hw
        have hcp := (Tape.write_inv _ _ _ hw).2.2.1
        refine ⟨?_, ⟨_, rfl⟩, fun c hc => ⟨rfl, ?_⟩⟩
        · simp only [htr, List.length_cons]
          omega
        · simp only [hcp]
  case call label =>
    simp only [VM.execute, withReg, withWrite, stepOk, VM.withTape, VM.saveHistoryFrame,
      VM.resolveLabel, Tape.getMark] at h
    split at h
    · exact Option.noConfusion h
    · next t2 hw1 =>
      split at h
      · exact Option.noConfusion h
      · next t4 hw2 =>
        obtain ⟨old1, htr1⟩ := Tape.write_trail _ _ _ hw1
        obtain ⟨old2, htr2⟩ := Tape.write_trail _ _ _ hw2
        have hcp1 := (Tape.write_inv _ _ _ hw1).2.2.1
        have hcp2 := (Tape.write_inv _ _ _ hw2).2.2.1
        have htrlen : vm.tape.tape.trail.length ≤ t4.trail.length := by
          simp only [htr2, Tape.seek, List.length_cons, htr1]
          omega
        have hcps : ∀ c : String, t4.checkpoints c = vm.tape.tape.checkpoints c := by
          intro c
          simp only [hcp2, Tape.seek, hcp1]
        split at h
        · rw [Option.some.injEq, Prod.mk.injEq] at h
          obtain ⟨hvm, -⟩ := h; subst hvm
          exact ⟨htrlen, ⟨_, rfl⟩, fun c hc => ⟨rfl, hcps c⟩⟩
        · rw [Option.some.injEq, Prod.mk.injEq] at h
          obtain ⟨hvm, -⟩ := h; subst hvm
          exact ⟨htrlen, ⟨_, rfl⟩, fun c hc => ⟨rfl, hcps c⟩⟩
  case tapeSeekMark label =>
    simp only [VM.execute, stepOk, VM.withTape, VM.saveHistoryFrame] at h
    rcases hsm : vm.tape.tape.seekMark label with ⟨t1, res⟩
    rw [hsm] at h
    unfold Tape.seekMark at hsm
    split at hsm
    · next pos hpos =>
      rw [Prod.mk.injEq] at hsm
      obtain ⟨ht1, hres⟩ := hsm
      subst hres
      cases h with
      | refl =>
        refine ⟨?_, ⟨_, rfl⟩, fun c hc => ⟨rfl, ?_⟩⟩
        · rw [← ht1]
          simp only [Tape.seek, List.length_cons]
          omega
        · rw [← ht1]
          rfl
    · rw [Prod.mk.injEq] at hsm
      obtain ⟨ht1, hres⟩ := hsm
      subst hres
      cases h with
      | refl =>
        refine ⟨?_, ⟨_, rfl⟩, fun c hc => ⟨rfl, ?_⟩⟩
        · rw [← ht1]
        · rw [← ht1]
  case checkpoint label =>
    simp only [VM.execute, stepOk, VM.withTape, VM.saveHistoryFrame, Tape.checkpoint] at h
    rw [Option.some.injEq, Prod.mk.injEq] at h
    obtain ⟨hvm, -⟩ := h; subst hvm
    refine ⟨le_refl _, ⟨_, rfl⟩, fun c hc => ⟨?_, ?_⟩⟩
    · have hne : c ≠ label := fun he => hc (by rw [he])
      simp [hne]
    · have hne : c ≠ label := fun he => hc (by rw [he])
      simp [hne]
  all_goals (
    simp only [VM.execute, withReg, withWrite, stepOk, VM.withTape, VM.saveHistoryFrame,
      VM.resolveLabel, Tape.getMark, Tape.seekMark] at h
    repeat' split at h
    all_goals
      first
      | exact Option.noConfusion h
      | (rw [Option.some.injEq, Prod.mk.injEq] at h
         obtain ⟨hvm, -⟩ := h
         subst hvm
         refine ⟨?_, ⟨_, rfl⟩, fun c hc => ⟨rfl, rfl⟩⟩
         dsimp only
         try simp only [Tape.seek, Tape.advance, Tape.mark, Tape.addTrailOp, List.length_cons]
         omega))

/-- Inversion of the `Checkpoint` arm. -/
lemma execute_checkpoint_inv (vm vm' : VM) (label : String) (r : Except String Unit)
    (h : vm.execute (Instruction.checkpoint label) = some (vm', r)) :
    r = Except.ok () ∧
    vm'.registers = vm.registers ∧ vm'.sp = vm.sp ∧ vm'.fp = vm.fp ∧
    vm'.ip = vm.ip + 1 ∧
    vm'.tape.tape.trail = vm.tape.tape.trail ∧
    vm'.historyCheckpoints label = some (vm.historyStack.length + 1) ∧
    vm'.tape.tape.checkpoints label = some vm.tape.tape.trail.length ∧
    ∃ f, vm'.historyStack = f :: vm.historyStack ∧
      f.registersBefore = vm.registers ∧ f.ipBefore = vm.ip ∧
      f.spBefore = vm.sp ∧ f.fpBefore = vm.fp ∧
      f.tapeTrailLen = vm.tape.tape.trail.length := by
  simp only [VM.execute, stepOk, VM.withTape, VM.saveHistoryFrame, Tape.checkpoint] at h
  rw [Option.some.injEq, Prod.mk.injEq] at h
  obtain ⟨hvm, hr⟩ := h
  subst hvm
  refine ⟨hr.symm, rfl, rfl, rfl, rfl, rfl, ?_, ?_, ⟨_, rfl, rfl, rfl, rfl, rfl, rfl⟩⟩
  · simp
  · simp

/-- The `TapeRead` arm never moves the head (`Tape::read` is pure; nothing in
the arm seeks). -/
lemma execute_tapeRead_head (vm : VM) (reg len : Nat) (vm' : VM) (r : Except String Unit)
    (h : vm.execute (Instruction.tapeRead reg len) = some (vm', r)) :
    vm'.tape.tape.head = vm.tape.tape.head := by
  simp only [VM.execute, withReg, withWrite, stepOk, VM.withTape, VM.saveHistoryFrame] at h
  repeat' split at h
  all_goals
    first
    | exact Option.noConfusion h
    | (rw [Option.some.injEq, Prod.mk.injEq] at h
       obtain ⟨hvm, -⟩ := h
       subst hvm
       rfl)

/-- Every arm except `Rewind` and `RewindN` preserves, for every prefix
length `cp` of the journal, the head and trail that rewinding down to `cp`
produces: each arm's appended trail entries undo to exactly the head the
arm started from. -/
lemma execute_head_facts (vm : VM) (inst : Instruction) (vm' : VM) (r : Except String Unit)
    (hni : inst.isRewindFamily = false) (h : vm.execute inst = some (vm', r)) :
    ∀ cp : Nat, cp ≤ vm.tape.tape.trail.length →
      rewindHeadTo vm'.tape.tape cp = rewindHeadTo vm.tape.tape cp := by
  cases inst
  case rewind l => simp [Instruction.isRewindFamily] at hni
  case rewindN s => simp [Instruction.isRewindFamily] at hni
  case store addr reg =>
    simp only [VM.execute, withReg, withWrite, stepOk, VM.withTape, VM.saveHistoryFrame] at h
    split at h
    · rw [Option.some.injEq, Prod.mk.injEq] at h
      obtain ⟨hvm, -⟩ := h; subst hvm
      intro cp hcp
      rfl
    · split at h
      · rw [Option.some.injEq, Prod.mk.injEq] at h
        obtain ⟨hvm, -⟩ := h; subst hvm
        intro cp hcp
        rfl
      · split at h
        · exact Option.noConfusion h
        · next t2 hw =>
          rw [Option.some.injEq, Prod.mk.injEq] at h
          obtain ⟨hvm, -⟩ := h; subst hvm
          intro cp hcp
          refine (rewindHeadTo_write _ _ _ _ hw ?_).trans (rewindHeadTo_seek _ _ _ hcp)
          simp only [Tape.seek, List.length_cons]
          omega
  case push reg =>
    simp only [VM.execute, withReg, withWrite, stepOk, VM.withTape, VM.saveHistoryFrame] at h
    split at h
    · rw [Option.some.injEq, Prod.mk.injEq] at h
      obtain ⟨hvm, -⟩ := h; subst hvm
      intro cp hcp
      exact rewindHeadTo_seek _ _ _ hcp
    · split at h
      · exact Option.noConfusion h
      · next t2 hw =>
        rw [Option.some.injEq, Prod.mk.injEq] at h
        obtain ⟨hvm, -⟩ := h; subst hvm
        intro cp hcp
        refine (rewindHeadTo_write _ _ _ _ hw ?_).trans (rewindHeadTo_seek _ _ _ hcp)
        simp only [Tape.seek, List.length_cons]
        omega
  case tapeWrite reg len =>
    simp only [VM.execute, withReg, withWrite, stepOk, VM.withTape, VM.saveHistoryFrame] at h
    split at h
    · rw [Option.some.injEq, Prod.mk.injEq] at h
      obtain ⟨hvm, -⟩ := h; subst hvm
      intro cp hcp
      rfl
    · split at h
      · exact Option.noConfusion h
      · next t2 hw =>
        rw [Option.some.injEq, Prod.mk.injEq] at h
        obtain ⟨hvm, -⟩ := h; subst hvm
        intro cp hcp
        exact rewindHeadTo_write _ _ _ _ hw hcp
  case call label =>
    simp only [VM.execute, withReg, withWrite, stepOk, VM.withTape, VM.saveHistoryFrame,
      VM.resolveLabel, Tape.getMark] at h
    split at h
    · exact Option.noConfusion h
    · next t2 hw1 =>
      split at h
      · exact Option.noConfusion h
      · next t4 hw2 =>
        have hkey : ∀ cp : Nat, cp ≤ vm.tape.tape.trail.length →
            rewindHeadTo t4 cp = rewindHeadTo vm.tape.tape cp := by
          intro cp hcp
          have h2len : cp ≤ t2.trail.length := by
            obtain ⟨old1, htr1⟩ := Tape.write_trail _ _ _ hw1
            rw [htr1]
            simp only [Tape.seek, List.length_cons]
            omega
          refine (rewindHeadTo_write _ _ _ _ hw2 ?_).trans
            ((rewindHeadTo_seek _ _ _ h2len).trans
              ((rewindHeadTo_write _ _ _ _ hw1 ?_).trans
                (rewindHeadTo_seek _ _ _ hcp)))
          · simp only [Tape.seek, List.length_cons]
            omega
          · simp only [Tape.seek, List.length_cons]
            omega
        split at h
        · rw [Option.some.injEq, Prod.mk.injEq] at h
          obtain ⟨hvm, -⟩ := h; subst hvm
          exact hkey
        · rw [Option.some.injEq, Prod.mk.injEq] at h
          obtain ⟨hvm, -⟩ := h; subst hvm
          exact hkey
  case tapeSeekMark label =>
    simp only [VM.execute, stepOk, VM.withTape, VM.saveHistoryFrame] at h
    rcases hsm : vm.tape.tape.seekMark label with ⟨t1, res⟩
    rw [hsm] at h
    unfold Tape.seekMark at hsm
    split at hsm
    · next pos hpos =>
      rw [Prod.mk.injEq] at hsm
      obtain ⟨ht1, hres⟩ := hsm
      subst hres
      cases h with
      | refl =>
        intro cp hcp
        rw [← ht1]
        exact rewindHeadTo_seek _ _ _ hcp
    · rw [Prod.mk.injEq] at hsm
      obtain ⟨ht1, hres⟩ := hsm
      subst hres
      cases h with
      | refl =>
        intro cp hcp
        rw [← ht1]
  case ret =>
    simp only [VM.execute, withReg, withWrite, stepOk, VM.withTape, VM.saveHistoryFrame] at h
    repeat' split at h
    all_goals
      first
      | exact Option.noConfusion h
      | (rw [Option.some.injEq, Prod.mk.injEq] at h
         obtain ⟨hvm, -⟩ := h
         subst hvm
         intro cp hcp
         first
         | exact rewindHeadTo_seek _ _ _ hcp
         | exact (rewindHeadTo_seek _ _ _
             (by simp only [Tape.seek, List.length_cons]; omega)).trans
             (rewindHeadTo_seek _ _ _ hcp))
  all_goals (
    simp only [VM.execute, withReg, withWrite, stepOk, VM.withTape, VM.saveHistoryFrame,
      VM.resolveLabel, Tape.getMark, Tape.advance] at h
    repeat' split at h
    all_goals
      first
      | exact Option.noConfusion h
      | (rw [Option.some.injEq, Prod.mk.injEq] at h
         obtain ⟨hvm, -⟩ := h
         subst hvm
         intro cp hcp
         first
         | rfl
         | exact rewindHeadTo_seek _ _ _ hcp
         | exact rewindHeadTo_mark _ _ _ hcp
         | exact rewindHeadTo_checkpoint _ _ _))

lemma reverseLast_trail_le (vm vm' : VM) (r : Except String Unit)
    (h : vm.reverseLast = some (vm', r)) :
    vm'.tape.tape.trail.length ≤ vm.tape.tape.trail.length := by
  unfold VM.reverseLast at h
  split at h
  · rw [Option.some.injEq, Prod.mk.injEq] at h
    obtain ⟨hvm, -⟩ := h
    subst hvm
    exact le_refl _
  · dsimp only at h
    split at h
    · exact Option.noConfusion h
    · next t' hrw =>
      rw [Option.some.injEq, Prod.mk.injEq] at h
      obtain ⟨hvm, -⟩ := h
      subst hvm
      exact Tape.rewindN_trail_le _ _ _ hrw

/-- Invariant preservation over a middle sequence that contains no
`Rewind`/`RewindN` and no `Checkpoint c`: the two checkpoint entries of `c`
survive, the journal never dips below the checkpointed length, rewinding to
the checkpointed length still yields the head and trail it yielded at the
start, and the history stack keeps `base` as a suffix. -/
lemma execSeq_middle (c : String) (Lc posc : Nat) (base : List HistoryFrame) :
    ∀ (M : List Instruction) (vm vm2 : VM),
    (∀ i ∈ M, i.isRewindFamily = false ∧ i ≠ Instruction.checkpoint c) →
    execSeq M vm = some vm2 →
    vm.historyCheckpoints c = some posc →
    vm.tape.tape.checkpoints c = some Lc →
    Lc ≤ vm.tape.tape.trail.length →
    (∃ ext, vm.historyStack = ext ++ base) →
    vm2.historyCheckpoints c = some posc ∧
    vm2.tape.tape.checkpoints c = some Lc ∧
    Lc ≤ vm2.tape.tape.trail.length ∧
    rewindHeadTo vm2.tape.tape Lc = rewindHeadTo vm.tape.tape Lc ∧
    ∃ ext, vm2.historyStack = ext ++ base := by
  intro M
  induction M with
  | nil =>
    intro vm vm2 hM h2 hc1 hc2 hc3 hc4
    simp only [execSeq, Option.some.injEq] at h2
    subst h2
    exact ⟨hc1, hc2, hc3, rfl, hc4⟩
  | cons i rest ih =>
    intro vm vm2 hM h2 hc1 hc2 hc3 hc4
    simp only [execSeq] at h2
    split at h2
    · exact Option.noConfusion h2
    · next vm1 r1 heq =>
      have hmem : i ∈ i :: rest := List.mem_cons_self i rest
      obtain ⟨hmono, ⟨fr, hst⟩, hcp⟩ :=
        execute_step_facts vm i vm1 r1 (hM i hmem).1 heq
      have hcpc := hcp c (hM i hmem).2
      have hhead := execute_head_facts vm i vm1 r1 (hM i hmem).1 heq Lc hc3
      obtain ⟨ext, hext⟩ := hc4
      obtain ⟨k1, k2, k3, k4, k5⟩ :=
        ih vm1 vm2 (fun j hj => hM j (List.mem_cons_of_mem i hj)) h2
          (by rw [hcpc.1, hc1]) (by rw [hcpc.2, hc2]) (le_trans hc3 hmono)
          ⟨fr :: ext, by rw [hst, hext]; rfl⟩
      exact ⟨k1, k2, k3, k4.trans hhead, k5⟩

/-! ### Claim theorems -/

/-- C1 (code bug): the spec's reversibility property P1 fails on the code.
The six-instruction program `c1Program` completes successfully on a fresh
VM, but executing it and then calling `reverse_last` six times leaves the
journal empty (length 0) instead of restoring the initial journal length 3:
`Rewind "c"` pops only one of `Store`'s two trail entries, so the first
`reverse_last` computes `trail_len - frame.tape_trail_len = 4 - 5` in
`usize`, which wraps (release) or panics (debug) and drains the whole
journal, the three `SegmentCreate` entries of `VM::new` included. -/
theorem c1_reverse_last_underflow :
    (execSeqOk c1Program VM.new).isSome = true ∧
    ((execSeqOk c1Program VM.new).bind (reverseCalls 6)).map
      (fun vm => vm.tape.tape.trail.length) = some 0 ∧
    VM.new.tape.tape.trail.length = 3 := by
  decide

/-- C2 (counterexample): after `Checkpoint "c"` on a fresh VM the
instruction pointer is 1, but executing `Rewind "c"` right after restores
the instruction pointer to 0 — the value it had when the `Checkpoint`
instruction was dispatched — so the VM state after `Rewind c` differs from
the state immediately after `Checkpoint c` completed.  Both instructions
complete successfully. -/
theorem c2_counterexample :
    (VM.new.execute (Instruction.checkpoint ("c"))).map
      (fun p => (p.1.ip, resultOk p.2)) = some (1, true) ∧
    ((VM.new.execute (Instruction.checkpoint ("c"))).bind
      (fun p => p.1.execute (Instruction.rewind ("c")))).map
      (fun p => (p.1.ip, resultOk p.2)) = some (0, true) ∧
    ¬ ((0 : Int) = 1) := by
  decide

/-- C2 (amended): if `Checkpoint c` completes, a sequence of instructions
containing no `Checkpoint c`, no `Rewind` and no `RewindN` runs (each
instruction completing or failing recoverably), and then `Rewind c`
completes, the registers (flags included), SP, FP, journal length and tape
head position after `Rewind c` equal their values immediately after
`Checkpoint c` completed, and the IP after `Rewind c` is one less than
immediately after `Checkpoint c` completed (the value at which the
`Checkpoint` instruction was dispatched).  Tape bytes and marks are not
asserted — the counterexample shows the marks map (and, via misaligned
old-byte captures, the bytes) need not be restored. -/
theorem c2_amended (c : String) (vm0 vm1 vm2 vm3 : VM) (M : List Instruction)
    (h1 : vm0.execute (Instruction.checkpoint c) = some (vm1, Except.ok ()))
    (hM : ∀ i ∈ M, i.isRewindFamily = false ∧ i ≠ Instruction.checkpoint c)
    (h2 : execSeq M vm1 = some vm2)
    (h3 : vm2.execute (Instruction.rewind c) = some (vm3, Except.ok ())) :
    vm3.registers = vm1.registers ∧ vm3.sp = vm1.sp ∧ vm3.fp = vm1.fp ∧
    vm3.tape.tape.trail.length = vm1.tape.tape.trail.length ∧
    vm3.tape.tape.head = vm1.tape.tape.head ∧
    vm3.ip + 1 = vm1.ip := by
  obtain ⟨-, hreg1, hsp1, hfp1, hip1, htr1, hhc1, htc1, f, hstack1, hfreg, hfip, hfsp, hffp, -⟩ :=
    execute_checkpoint_inv vm0 vm1 c (Except.ok ()) h1
  obtain ⟨hhc2, htc2, hlen2, hhead2, ext, hstk2⟩ :=
    execSeq_middle c vm0.tape.tape.trail.length (vm0.historyStack.length + 1)
      vm1.historyStack M vm1 vm2 hM h2 hhc1 htc1 (le_of_eq (by rw [htr1])) ⟨[], rfl⟩
  have hlenbase : vm1.historyStack.length = vm0.historyStack.length + 1 := by
    rw [hstack1]; rfl
  have hbase : rewindHeadTo vm1.tape.tape vm0.tape.tape.trail.length =
      some (vm1.tape.tape.head, vm1.tape.tape.trail) := by
    unfold rewindHeadTo
    have h0 : vm1.tape.tape.trail.length - vm0.tape.tape.trail.length = 0 := by
      rw [htr1]
      omega
    rw [h0]
    rfl
  simp only [VM.execute, VM.withTape, VM.saveHistoryFrame] at h3
  rcases hrew : vm2.tape.tape.rewind c with - | ⟨t1, res⟩
  · rw [hrew] at h3
    exact Option.noConfusion h3
  · have hres : res = Except.ok () ∧ t1.trail.length = vm0.tape.tape.trail.length ∧
        t1.head = vm1.tape.tape.head := by
      unfold Tape.rewind at hrew
      rw [htc2] at hrew
      dsimp only at hrew
      cases hrn : vm2.tape.tape.rewindN
          (vm2.tape.tape.trail.length - vm0.tape.tape.trail.length) with
      | none => rw [hrn] at hrew; exact Option.noConfusion hrew
      | some t2 =>
        rw [hrn] at hrew
        rw [Option.some.injEq, Prod.mk.injEq] at hrew
        obtain ⟨ht2, hres⟩ := hrew
        subst ht2
        refine ⟨hres.symm, ?_, ?_⟩
        · have := Tape.rewindN_trail_length _ _ _ hrn
          omega
        · have hh : rewindHeadTo vm2.tape.tape vm0.tape.tape.trail.length =
              some (t2.head, t2.trail) := by
            unfold rewindHeadTo
            rw [hrn]
            rfl
          rw [hhead2, hbase] at hh
          rw [Option.some.injEq, Prod.mk.injEq] at hh
          exact hh.1.symm
    obtain ⟨hok, ht1len, ht1head⟩ := hres
    subst hok
    rw [hrew] at h3
    dsimp only at h3
    rw [hhc2] at h3
    dsimp only at h3
    rw [hstk2, hstack1] at h3
    have hdroplen :
        (({ instruction := Instruction.rewind c, registersBefore := vm2.registers,
            ipBefore := vm2.ip, spBefore := vm2.sp, fpBefore := vm2.fp,
            tapeTrailLen := vm2.tape.tape.trail.length } :
            HistoryFrame) :: (ext ++ f :: vm0.historyStack)).length -
          (vm0.historyStack.length + 1) = 1 + ext.length := by
      simp only [List.length_cons, List.length_append]
      omega
    rw [hdroplen] at h3
    rw [drop_one_append] at h3
    dsimp only at h3
    rw [Option.some.injEq, Prod.mk.injEq] at h3
    obtain ⟨hvm3, -⟩ := h3
    subst hvm3
    refine ⟨?_, ?_, ?_, ?_, ?_, ?_⟩
    · rw [hreg1]; exact hfreg
    · rw [hsp1]; exact hfsp
    · rw [hfp1]; exact hffp
    · have : vm1.tape.tape.trail.length = vm0.tape.tape.trail.length := by rw [htr1]
      rw [this]
      exact ht1len
    · dsimp only
      exact ht1head
    · rw [hip1, hfip]

/-- Witness for C2: `Checkpoint "c"` then immediately `Rewind "c"` on a
fresh VM (empty middle sequence). -/
theorem c2_witness :
    VM.new.execute (Instruction.checkpoint ("c")) = some (c2Vm1, Except.ok ()) ∧
    execSeq [] c2Vm1 = some c2Vm1 ∧
    c2Vm1.execute (Instruction.rewind ("c")) = some (c2Vm3, Except.ok ()) ∧
    (c2Vm3.registers = c2Vm1.registers ∧ c2Vm3.sp = c2Vm1.sp ∧ c2Vm3.fp = c2Vm1.fp ∧
     c2Vm3.tape.tape.trail.length = c2Vm1.tape.tape.trail.length ∧
     c2Vm3.tape.tape.head = c2Vm1.tape.tape.head ∧
     c2Vm3.ip + 1 = c2Vm1.ip) :=
  ⟨rfl, rfl, rfl,
    c2_amended ("c") VM.new c2Vm1 c2Vm1 c2Vm3 []
      rfl (fun i hi => absurd hi (List.not_mem_nil i)) rfl rfl⟩

/-- C3 (code bug): popping and inverting a `SegmentCreate` trail entry does
not remove the segment from the segment map, and popping a `SegmentModify`
entry writes nothing back: both arms of `Tape::undo_operation` are no-ops
(their comments claim the inversion is "handled by SegmentedTape", but no
such handling exists in the crate).  After creating segment `"s"` and
rewinding the single `SegmentCreate` entry, the journal is empty but the
segment map still contains `"s"` unchanged. -/
theorem c3_segment_undo_is_noop :
    c3State.tape.trail = [TrailOp.segmentCreate ("s") 0 10] ∧
    (c3State.tape.rewindN 1).map (fun t => t.trail.length) = some 0 ∧
    (c3After.segments.lookup ("s")).isSome = true ∧
    c3After.segments = c3State.segments := by
  decide

/-- C4 (code bug): `Tape::read` is not total at negative head positions.
With page 0 present (created by a 1-byte write at position 0) and the head
at `-1`, `read(1)` computes page index `(-1)/4096 = 0` by truncated
division and casts the remainder `-1` to `usize`, producing an offset of
`2^64 - 1`; the slice index (debug: the `usize` subtraction) then panics,
modelled here by `none`.  The spec's invariants I1/I4 require reads at any
integer position, absent pages reading as zero. -/
theorem c4_read_panics_at_negative :
    (Tape.new.write [1]).isSome = true ∧
    ((Tape.new.write [1]).bind (fun t => (t.seek (-1)).read 1)) = none := by
  decide

/-- C5 (counterexample): a forward call to `VM::execute` can decrease the
journal length.  On a fresh VM, after `Checkpoint "c"` and `TapeAdvance 1`
the journal has 4 entries; the forward execution of the `Rewind "c"`
instruction shrinks it back to 3. -/
theorem c5_counterexample :
    (execSeqOk [Instruction.checkpoint ("c"), Instruction.tapeAdvance 1] VM.new).map
      (fun vm => vm.tape.tape.trail.length) = some 4 ∧
    (execSeqOk [Instruction.checkpoint ("c"), Instruction.tapeAdvance 1,
        Instruction.rewind ("c")] VM.new).map
      (fun vm => vm.tape.tape.trail.length) = some 3 := by
  decide

/-- C5 (amended): for every instruction other than `Rewind` and `RewindN`,
a call to `VM::execute` never decreases the journal length (whether it
returns `Ok` or `Err`); and `reverse_last`, `Tape::rewind` and
`Tape::rewind_n` never increase it. -/
theorem c5_amended :
    (∀ (vm : VM) (inst : Instruction) (vm' : VM) (r : Except String Unit),
      inst.isRewindFamily = false → vm.execute inst = some (vm', r) →
      vm.tape.tape.trail.length ≤ vm'.tape.tape.trail.length) ∧
    (∀ (vm vm' : VM) (r : Except String Unit), vm.reverseLast = some (vm', r) →
      vm'.tape.tape.trail.length ≤ vm.tape.tape.trail.length) ∧
    (∀ (t : Tape) (name : String) (t' : Tape) (r : Except String Unit),
      t.rewind name = some (t', r) → t'.trail.length ≤ t.trail.length) ∧
    (∀ (t : Tape) (n : Nat) (t' : Tape), t.rewindN n = some t' →
      t'.trail.length ≤ t.trail.length) := by
  refine ⟨?_, ?_, ?_, ?_⟩
  · intro vm inst vm' r hni h
    exact (execute_step_facts vm inst vm' r hni h).1
  · intro vm vm' r h
    exact reverseLast_trail_le vm vm' r h
  · intro t name t' r h
    exact Tape.rewind_trail_le t name t' r h
  · intro t n t' h
    exact Tape.rewindN_trail_le n t t' h

/-- Witness for C5: instantiating the amended claim at `Nop` on a fresh VM. -/
theorem c5_witness :
    Instruction.nop.isRewindFamily = false ∧
    VM.new.tape.tape.trail.length ≤ c5Vm.tape.tape.trail.length :=
  ⟨by decide, c5_amended.1 VM.new Instruction.nop c5Vm (Except.ok ()) (by decide) rfl⟩

/-- C6: `Call L` pushes the return address `IP + 1` at `SP − 8` and the old
frame pointer at `SP − 16`, then `Return`, executed as the first instruction
of the callee, reads both back, leaving the VM at `(IP + 1, SP, FP)`.  The
range hypotheses keep the two stored `i64` values inside the `i64` range so
the little-endian encode/decode round-trips (they hold for every real
`i64` state). -/
theorem c6_call_return (vm vm1 vm2 : VM) (L : String)
    (hipr1 : -(2 ^ 63) ≤ vm.ip + 1) (hipr2 : vm.ip + 1 < 2 ^ 63)
    (hfpr1 : -(2 ^ 63) ≤ vm.fp) (hfpr2 : vm.fp < 2 ^ 63)
    (h1 : vm.execute (Instruction.call L) = some (vm1, Except.ok ()))
    (h2 : vm1.execute Instruction.ret = some (vm2, Except.ok ())) :
    vm2.ip = vm.ip + 1 ∧ vm2.sp = vm.sp ∧ vm2.fp = vm.fp := by
  simp only [VM.execute, VM.withTape, VM.saveHistoryFrame] at h1
  rcases hw1 : (vm.tape.tape.seek (vm.sp - 8)).write (toLeBytes8 (vm.ip + 1)) with - | t2
  · rw [hw1] at h1; exact Option.noConfusion h1
  rw [hw1] at h1
  dsimp only at h1
  rcases hw2 : (t2.seek (vm.sp - 8 - 8)).write (toLeBytes8 vm.fp) with - | t4
  · rw [hw2] at h1; exact Option.noConfusion h1
  rw [hw2] at h1
  dsimp only at h1
  split at h1
  · rw [Option.some.injEq, Prod.mk.injEq] at h1
    exact Except.noConfusion h1.2
  · rw [Option.some.injEq, Prod.mk.injEq] at h1
    obtain ⟨hvm1, -⟩ := h1
    subst hvm1
    obtain ⟨-, -, -, -, hin1, hout1, hpres1, halign1⟩ := Tape.write_inv _ _ _ hw1
    obtain ⟨-, -, -, -, hin2, hout2, hpres2, halign2⟩ := Tape.write_inv _ _ _ hw2
    simp only [Tape.seek_pages, Tape.seek_head, Tape.byteAt_seek, toLeBytes8_length]
      at hin1 hout1 halign1 hin2 hout2 halign2
    have hal1 : 0 ≤ (vm.sp - 8).tmod 4096 := halign1 (by simp [toLeBytes8])
    have hal2 : 0 ≤ (vm.sp - 8 - 8).tmod 4096 := halign2 (by simp [toLeBytes8])
    -- the bytes of the two stack slots in the tape after both writes
    have hbyte2 : ∀ i : Nat, i < 8 →
        t4.byteAt (vm.sp - 8 - 8 + (i : Int)) = (toLeBytes8 vm.fp).getD i 0 := by
      intro i hi
      have := (hin2 (vm.sp - 8 - 8 + (i : Int)) (by omega) (by push_cast; omega)).2
      rw [this]
      congr 1
      omega
    have hbyte1 : ∀ i : Nat, i < 8 →
        t4.byteAt (vm.sp - 8 + (i : Int)) = (toLeBytes8 (vm.ip + 1)).getD i 0 := by
      intro i hi
      have hb := hout2 (vm.sp - 8 + (i : Int)) (by right; push_cast; omega)
      rw [hb]
      have := (hin1 (vm.sp - 8 + (i : Int)) (by omega) (by push_cast; omega)).2
      rw [this]
      congr 1
      omega
    have hpr2 : ∀ p : Int, vm.sp - 8 - 8 ≤ p → p < vm.sp - 8 - 8 + (8 : Int) →
        (t4.pages (p / 4096)).isSome := by
      intro p hp1 hp2
      exact (hin2 p (by omega) (by push_cast; omega)).1
    have hpr1 : ∀ p : Int, vm.sp - 8 ≤ p → p < vm.sp - 8 + (8 : Int) →
        (t4.pages (p / 4096)).isSome := by
      intro p hp1 hp2
      apply hpres2
      exact (hin1 p (by omega) (by push_cast; omega)).1
    -- the two reads of the Return arm
    have hread1 : (t4.seek (vm.sp - 8 - 8)).read 8 = some (toLeBytes8 vm.fp) := by
      rw [Tape.read_present (t4.seek (vm.sp - 8 - 8)) 8 (fun _ => by
          simpa only [Tape.seek_head] using hal2)
        (fun p hp1 hp2 => by
          simp only [Tape.seek_head, Tape.seek_pages] at hp1 hp2 ⊢
          exact hpr2 p hp1 (by omega))]
      congr 1
      have hmap : (List.range 8).map
          (fun i : Nat => (t4.seek (vm.sp - 8 - 8)).byteAt ((t4.seek (vm.sp - 8 - 8)).head + (i : Int))) =
          (List.range 8).map (fun i : Nat => (toLeBytes8 vm.fp).getD i 0) := by
        apply List.map_congr_left
        intro i hi
        have hi' : i < 8 := List.mem_range.1 hi
        simp only [Tape.byteAt_seek, Tape.seek_head]
        exact hbyte2 i hi'
      rw [hmap, range8_map_getD _ (toLeBytes8_length vm.fp)]
    have hread2 : ((t4.seek (vm.sp - 8 - 8)).seek (vm.sp - 8 - 8 + 8)).read 8 =
        some (toLeBytes8 (vm.ip + 1)) := by
      have he : (vm.sp - 8 - 8 + 8 : Int) = vm.sp - 8 := by ring
      rw [Tape.read_present ((t4.seek (vm.sp - 8 - 8)).seek (vm.sp - 8 - 8 + 8)) 8
        (fun _ => by simp only [Tape.seek_head]; rw [he]; exact hal1)
        (fun p hp1 hp2 => by
          simp only [Tape.seek_head, Tape.seek_pages] at hp1 hp2 ⊢
          exact hpr1 p (by omega) (by omega))]
      congr 1
      have hmap : (List.range 8).map
          (fun i : Nat => ((t4.seek (vm.sp - 8 - 8)).seek (vm.sp - 8 - 8 + 8)).byteAt
            (((t4.seek (vm.sp - 8 - 8)).seek (vm.sp - 8 - 8 + 8)).head + (i : Int))) =
          (List.range 8).map (fun i : Nat => (toLeBytes8 (vm.ip + 1)).getD i 0) := by
        apply List.map_congr_left
        intro i hi
        have hi' : i < 8 := List.mem_range.1 hi
        simp only [Tape.byteAt_seek, Tape.seek_head]
        rw [show (vm.sp - 8 - 8 + 8 + (i : Int)) = vm.sp - 8 + (i : Int) by ring]
        exact hbyte1 i hi'
      rw [hmap, range8_map_getD _ (toLeBytes8_length (vm.ip + 1))]
    simp only [VM.execute, VM.withTape, VM.saveHistoryFrame] at h2
    try dsimp only at h2
    rw [hread1] at h2
    try dsimp only at h2
    rw [if_pos (toLeBytes8_length vm.fp)] at h2
    try dsimp only at h2
    rw [hread2] at h2
    try dsimp only at h2
    rw [if_pos (toLeBytes8_length (vm.ip + 1))] at h2
    rw [Option.some.injEq, Prod.mk.injEq] at h2
    obtain ⟨hvm2, -⟩ := h2
    subst hvm2
    refine ⟨?_, ?_, ?_⟩
    · dsimp only
      exact fromLe_toLe _ hipr1 hipr2
    · dsimp only
      ring
    · dsimp only
      exact fromLe_toLe _ hfpr1 hfpr2

/-- Witness for C6: `Call "f"` then `Return` on a fresh VM whose symbol
table maps `f` to 5. -/
theorem c6_witness :
    (-(2 ^ 63) ≤ c6Vm.ip + 1) ∧ (c6Vm.ip + 1 < 2 ^ 63) ∧
    (-(2 ^ 63) ≤ c6Vm.fp) ∧ (c6Vm.fp < 2 ^ 63) ∧
    c6Vm.execute (Instruction.call ("f")) = some (c6Vm1, Except.ok ()) ∧
    c6Vm1.execute Instruction.ret = some (c6Vm2, Except.ok ()) ∧
    (c6Vm2.ip = c6Vm.ip + 1 ∧ c6Vm2.sp = c6Vm.sp ∧ c6Vm2.fp = c6Vm.fp) :=
  ⟨by decide, by decide, by decide, by decide, rfl, rfl,
    c6_call_return c6Vm c6Vm1 c6Vm2 ("f") (by decide) (by decide) (by decide) (by decide)
      rfl rfl⟩

/-- C7 (counterexample): the claim fails at `offset = 2^63 - 2`, `len = 3`
on the 4-byte segment of `c7St`.  Mathematically `offset + len` exceeds the
segment size, so the claim demands the `SegmentBounds` error with no
mutation; but the source evaluates `offset + len as i64` in `i64`, which
wraps to a negative value in a release build, so the bounds check passes:
`read_segment` returns `Ok` with three zero bytes, and `write_segment`
returns `Ok` after growing the journal from 1 to 6 entries and writing the
bytes (a debug build panics on the overflow instead — either way the
claimed error-before-mutation behaviour does not occur). -/
theorem c7_counterexample :
    ((2 : Int) ^ 63 - 2) + ((3 : Nat) : Int) > ((4 : Nat) : Int) ∧
    ¬ ((2 : Int) ^ 63 - 2 < 0) ∧
    c7St.segments.lookup ("seg") = some c7Seg ∧ c7Seg.size = 4 ∧
    c7St.readSegment ("seg") (2 ^ 63 - 2) 3 = some (Except.ok [0, 0, 0]) ∧
    (c7St.writeSegment ("seg") (2 ^ 63 - 2) [7, 8, 9]).map
      (fun p => (resultOk p.2, p.1.tape.trail.length)) = some (true, 6) ∧
    (c7St.writeSegment ("seg") (2 ^ 63 - 2) [7, 8, 9]).map
      (fun p => p.1.tape.byteAt (2 ^ 63 - 2)) = some 7 ∧
    c7St.tape.trail.length = 1 ∧ c7St.tape.byteAt (2 ^ 63 - 2) = 0 :=
  ⟨by decide, by decide, by decide, by decide, rfl, rfl, rfl, by decide, by decide⟩

/-- C7 (amended): on inputs where the `i64` arithmetic of the bounds check
does not overflow (`-2^63 ≤ offset`, `len < 2^63`, `segment.size < 2^63`
and `offset + len < 2^63`), segment reads and writes with `offset < 0` or
`offset + len` exceeding the segment size fail with the `SegmentBounds`
error before any mutation: `read_segment` only errors, and `write_segment`
returns the error with the segmented tape unchanged — no trail entry, no
tape change, no segment-map change. -/
theorem c7_amended (st : SegmentedTape) (name : String) (seg : Segment)
    (offset : Int) (len : Nat) (data : List Nat)
    (hseg : st.segments.lookup name = some seg) (hlen : data.length = len)
    (ho : -(2 ^ 63) ≤ offset) (hl : (len : Int) < 2 ^ 63)
    (hs : ((seg.size : Nat) : Int) < 2 ^ 63) (hsum : offset + (len : Int) < 2 ^ 63)
    (hb : offset < 0 ∨ offset + (len : Int) > (seg.size : Int)) :
    st.readSegment name offset len = some (Except.error ("Segment bounds violation")) ∧
    st.writeSegment name offset data = some (st, Except.error ("Segment bounds violation")) := by
  have hwl : wrap64 ((len : Nat) : Int) = ((len : Nat) : Int) := wrap64_id _ (by omega) hl
  have hws : wrap64 ((seg.size : Nat) : Int) = ((seg.size : Nat) : Int) := wrap64_id _ (by omega) hs
  have hwsum : wrap64 (offset + ((len : Nat) : Int)) = offset + ((len : Nat) : Int) :=
    wrap64_id _ (by omega) hsum
  have hb' : offset < 0 ∨
      wrap64 (offset + wrap64 ((len : Nat) : Int)) > wrap64 ((seg.size : Nat) : Int) := by
    rw [hwl, hwsum, hws]
    exact hb
  constructor
  · unfold SegmentedTape.readSegment
    rw [hseg]
    dsimp only
    rw [if_pos hb']
  · unfold SegmentedTape.writeSegment
    rw [hseg]
    dsimp only
    rw [hlen, if_pos hb']

/-- Witness for C7 (amended): a 4-byte segment, `offset = 2`, `len = 3`. -/
theorem c7_witness :
    c7St.segments.lookup ("seg") = some c7Seg ∧
    ([1, 2, 3] : List Nat).length = 3 ∧
    (-(2 ^ 63) ≤ (2 : Int)) ∧ (((3 : Nat) : Int) < 2 ^ 63) ∧
    (((c7Seg.size : Nat) : Int) < 2 ^ 63) ∧ ((2 : Int) + ((3 : Nat) : Int) < 2 ^ 63) ∧
    ((2 : Int) < 0 ∨ (2 : Int) + ((3 : Nat) : Int) > ((c7Seg.size : Nat) : Int)) ∧
    (c7St.readSegment ("seg") 2 3 = some (Except.error ("Segment bounds violation")) ∧
     c7St.writeSegment ("seg") 2 [1, 2, 3] =
       some (c7St, Except.error ("Segment bounds violation"))) :=
  ⟨by decide, rfl, by decide, by decide, by decide, by decide, by decide,
    c7_amended c7St ("seg") c7Seg 2 3 [1, 2, 3] (by decide) rfl (by decide) (by decide)
      (by decide) (by decide) (by decide)⟩

/-- C8 (counterexample): executing `TapeRead R0, 1` on a fresh VM completes
successfully and leaves the head at 0; the claim would require the head to
advance to `0 + 1`. -/
theorem c8_counterexample :
    (VM.new.execute (Instruction.tapeRead 0 1)).map (fun p => p.1.tape.tape.head) = some 0 ∧
    (VM.new.execute (Instruction.tapeRead 0 1)).map (fun p => resultOk p.2) = some true ∧
    ¬ ((0 : Int) = VM.new.tape.tape.head + 1) := by
  decide

/-- C8 (amended): the `TapeRead` arm never moves the tape head —
`Tape::read` is pure and nothing in the arm seeks, whatever the register or
length operands and whether the arm succeeds or fails. -/
theorem c8_tapeRead_head_unchanged (vm : VM) (reg len : Nat) (vm' : VM)
    (r : Except String Unit)
    (h : vm.execute (Instruction.tapeRead reg len) = some (vm', r)) :
    vm'.tape.tape.head = vm.tape.tape.head :=
  execute_tapeRead_head vm reg len vm' r h

/-- Witness for C8: `TapeRead R0, 1` on a fresh VM. -/
theorem c8_witness : c8Vm.tape.tape.head = VM.new.tape.tape.head :=
  c8_tapeRead_head_unchanged VM.new 0 1 c8Vm (Except.ok ()) rfl

/-- C9: when the head is non-negative (which makes every position of the
read range non-negative), `Tape::read` always succeeds and returns exactly
`len` bytes; in particular the `try_into` conversions to 8-byte arrays in
the `Load`, `Pop` and `Return` arms always see exactly 8 bytes at
non-negative addresses, so their `Failed to read` branches are
unreachable. -/
theorem c9_read_total (t : Tape) (h : 0 ≤ t.head) (len : Nat) :
    ∃ bs, t.read len = some bs ∧ bs.length = len :=
  Tape.read_length t len h

/-- Witness for C9: an 8-byte read on the fresh tape. -/
theorem c9_witness :
    (0 : Int) ≤ Tape.new.head ∧ ∃ bs, Tape.new.read 8 = some bs ∧ bs.length = 8 :=
  ⟨by decide, c9_read_total Tape.new (by decide) 8⟩

/-- C10: the fresh VM's three segments sit at starts 0, 1 MiB and 2 MiB
(1 MiB each), `SP = FP = 1 MiB`, and for every valid register the first
`Push r` journals its eight bytes at positions `2^20 − 8 .. 2^20 − 1` —
inside the code segment's address range and outside the stack segment's
address range. -/
theorem c10_layout_and_first_push (r : Nat) (hr : r < 16) : c10Concl r := by
  unfold c10Concl
  interval_cases r <;> decide

/-- Witness for C10: register 0. -/
theorem c10_witness : 0 < 16 ∧ c10Concl 0 :=
  ⟨by decide, c10_layout_and_first_push 0 (by decide)⟩

end Palindrome
